import Mathlib

/-!
Verification of the glTF loader (`src/loader.rs`, `src/lib.rs`) of
`bevy_mod_gltf_patched`.

The development shallowly embeds the parts of the loader that the claims
concern:

* the node-hierarchy resolver `resolve_node_hierarchy` (loader.rs:1317-1370),
  including its parent assignment, its FIFO work queue of childless nodes,
  the per-entry pending-children sets, the final sort by original index and
  the two warning sites;
* the named-node map construction of `load_gltf` (loader.rs:633-644);
* the vertex-attribute format dispatch `VertexAttributeIter::from_accessor`
  together with `BufferAccessor::iter` / `with_no_norm` / `with_norm`
  (loader.rs:130-218);
* the texture-loading phase of `load_gltf` (loader.rs:650-692);
* the skin phase of `load_gltf` (loader.rs:694-709);
* `get_primitive_topology` (loader.rs:1256-1265) and its use in the mesh
  loop (loader.rs:461);
* the animation phase of `load_gltf` (loader.rs:377-453).

Rust `HashMap<usize, _>` values keyed by the node indices `0..n` are
represented positionally as `List (Option _)` of length `n`; Rust
`HashSet<usize>` values are represented as duplicate-free `List Nat`
(obtained with `List.dedup`), which matches the hash set up to the only
operations performed on it (membership, removal, emptiness test).
`Vec::sort_by_key` (a stable comparison sort) is represented by
`List.insertionSort` on the key order.  External collaborators (the `gltf`
crate's iterator construction, image decoding, I/O) are passed in as
explicit function parameters.
-/

namespace GltfPatched

/-- The `GltfNode` asset type of `lib.rs` (lines 80-84): a node owns a list
of child nodes, an optional mesh handle (represented by the mesh index the
handle was created from) and a transform.  The resolver copies transforms
opaquely and never inspects them, so the `Transform` payload is represented
by an uninterpreted `Nat` tag. -/
inductive GltfNode : Type where
  | mk (children : List GltfNode) (mesh : Option Nat) (transform : Nat) : GltfNode

instance : Inhabited GltfNode := ⟨.mk [] none 0⟩

/-- The `children` field of a `GltfNode`. -/
def GltfNode.children : GltfNode → List GltfNode
  | .mk c _ _ => c

/-- The `mesh` field of a `GltfNode`. -/
def GltfNode.mesh : GltfNode → Option Nat
  | .mk _ m _ => m

/-- The `transform` field of a `GltfNode`. -/
def GltfNode.transform : GltfNode → Nat
  | .mk _ _ t => t

/-- The effect of `parent_node.children.push(child_node.clone())`
(loader.rs:1354). -/
def GltfNode.pushChild : GltfNode → GltfNode → GltfNode
  | .mk c m t, child => .mk (c ++ [child]) m t

/-- Appending a whole list of children at once; `pushChild` iterated.  Used
only in specifications of the resolver's behaviour. -/
def GltfNode.appendChildren : GltfNode → List GltfNode → GltfNode
  | .mk c m t, l => .mk (c ++ l) m t

/-- One element of the `nodes_intermediate` vector passed to
`resolve_node_hierarchy`: a label, a node and the declared child-index
list. -/
abbrev NodeEntry := String × GltfNode × List Nat

/-- The declared child-index list of entry `i` (empty when `i` is out of
range). -/
def declOf (L : List NodeEntry) (i : Nat) : List Nat :=
  ((L[i]?).map (fun e => e.2.2)).getD []

/-- The label of entry `i`. -/
def labelOf (L : List NodeEntry) (i : Nat) : String :=
  ((L[i]?).map (fun e => e.1)).getD ""

/-- The initial node value of entry `i`. -/
def nodeOf (L : List NodeEntry) (i : Nat) : GltfNode :=
  ((L[i]?).map (fun e => e.2.1)).getD (.mk [] none 0)

/-- The inner loop of the parent-assignment pass (loader.rs:1328-1335): for
each declared child of entry `i`, in order, set `parents[child] = Some(i)`
when the index is in range, and otherwise record that the
"Unexpected child" warning has fired (`has_errored`). -/
def assignChildren : List (Option Nat) → Bool → Nat → List Nat → List (Option Nat) × Bool
  | ps, err, _, [] => (ps, err)
  | ps, err, i, c :: cs =>
    if c < ps.length then assignChildren (ps.set c (some i)) err i cs
    else assignChildren ps true i cs

/-- The enumeration of `nodes_intermediate` driving the parent-assignment
pass (loader.rs:1324-1342), accumulating the `parents` vector and the
`has_errored` flag. -/
def initParentsAux : List (Option Nat) → Bool → Nat → List NodeEntry → List (Option Nat) × Bool
  | ps, err, _, [] => (ps, err)
  | ps, err, i, e :: rest =>
    let pe := assignChildren ps err i e.2.2
    initParentsAux pe.1 pe.2 (i + 1) rest

/-- The `parents` vector (initially `vec![None; n]`, loader.rs:1323) after
the assignment pass, together with the final `has_errored` flag. -/
def initParents (L : List NodeEntry) : List (Option Nat) × Bool :=
  initParentsAux (List.replicate L.length none) false 0 L

/-- Reading `parents[c]` as an optional parent index. -/
def parentOf (parents : List (Option Nat)) (c : Nat) : Option Nat :=
  (parents[c]?).join

/-- The parent map induced by the input list: `pf L c = some i` exactly when
the resolver's `parents[c]` ends up holding `Some(i)` (the last entry that
declares `c` as a child wins). -/
def pf (L : List NodeEntry) (c : Nat) : Option Nat :=
  parentOf (initParents L).1 c

/-- The initial `empty_children` queue (loader.rs:1337-1339): the indices
whose (deduplicated) declared child list is empty, in input order. -/
def initQueue (L : List NodeEntry) : List Nat :=
  (List.range L.length).filter (fun i => (declOf L i).dedup.isEmpty)

/-- The initial `unprocessed_nodes` map (loader.rs:1324-1342), keyed
positionally by node index; each entry keeps its label, its node and its
pending-children set (the declared child list collected into a set). -/
def initUnprocessed (L : List NodeEntry) : List (Option (String × GltfNode × List Nat)) :=
  L.map (fun e => some (e.1, e.2.1, e.2.2.dedup))

/-- The loop state of `resolve_node_hierarchy`: the `empty_children` FIFO
queue, the `unprocessed_nodes` map and the `nodes` map of resolved entries
(kept here as the list of resolutions in completion order; the Rust hash
map is only read back when sorting by key at the end). -/
structure RState where
  queue : List Nat
  unprocessed : List (Option (String × GltfNode × List Nat))
  resolved : List (Nat × String × GltfNode)

/-- The number of live entries of the `unprocessed_nodes` map. -/
def pendingCount (u : List (Option (String × GltfNode × List Nat))) : Nat :=
  u.countP (fun o => o.isSome)

theorem pendingCount_set_none (u : List (Option (String × GltfNode × List Nat))) (i : Nat)
    (e : String × GltfNode × List Nat) (h : u[i]? = some (some e)) :
    pendingCount (u.set i none) + 1 = pendingCount u := by
  induction u generalizing i with
  | nil => simp at h
  | cons a u ih =>
    cases i with
    | zero =>
      simp at h
      subst h
      simp [pendingCount, List.countP_cons]
    | succ j =>
      simp at h
      have := ih j h
      simp [pendingCount, List.set, List.countP_cons] at *
      omega

theorem pendingCount_set_some (u : List (Option (String × GltfNode × List Nat))) (i : Nat)
    (e v : String × GltfNode × List Nat) (h : u[i]? = some (some e)) :
    pendingCount (u.set i (some v)) = pendingCount u := by
  induction u generalizing i with
  | nil => simp at h
  | cons a u ih =>
    cases i with
    | zero =>
      simp at h
      subst h
      simp [pendingCount, List.countP_cons]
    | succ j =>
      simp at h
      have := ih j h
      simp [pendingCount, List.set, List.countP_cons] at *
      omega

theorem join_eq_some {α : Type} {o : Option (Option α)} {a : α} :
    o.join = some a ↔ o = some (some a) := by
  cases o with
  | none => simp
  | some b => cases b <;> simp

theorem getElem?_some_lt {α : Type} {l : List α} {i : Nat} {a : α} (h : l[i]? = some a) :
    i < l.length := by
  by_contra hge
  rw [List.getElem?_eq_none (Nat.le_of_not_lt hge)] at h
  exact Option.noConfusion h

def runLoop (parents : List (Option Nat)) :
    List Nat → List (Option (String × GltfNode × List Nat)) →
    List (Nat × String × GltfNode) → RState
  | [], u, res => ⟨[], u, res⟩
  | index :: rest, u, res =>
    match h1 : (u[index]?).join with
    | none => runLoop parents rest u res
    | some (label, node, _ch) =>
      let u1 := u.set index none
      let res1 := res ++ [(index, label, node)]
      match parentOf parents index with
      | none => runLoop parents rest u1 res1
      | some p =>
        match h2 : (u1[p]?).join with
        | none => runLoop parents rest u1 res1
        | some (plabel, pnode, pchildren) =>
          let pch := pchildren.erase index
          let u2 := u1.set p (some (plabel, pnode.pushChild node, pch))
          let q2 := if pch.isEmpty then rest ++ [p] else rest
          runLoop parents q2 u2 res1
termination_by q u _ => pendingCount u + q.length
decreasing_by
  · simp only [List.length_cons]
    omega
  · have hc := pendingCount_set_none u index _ (join_eq_some.mp h1)
    simp only [List.length_cons]
    omega
  · have hc1 := pendingCount_set_none u index _ (join_eq_some.mp h1)
    have hc2 := pendingCount_set_some (u.set index none) p _
      (plabel, GltfNode.pushChild pnode node, pchildren.erase index)
      (join_eq_some.mp h2)
    split
    · simp only [List.length_append, List.length_cons, List.length_nil]
      omega
    · simp only [List.length_cons]
      omega


/-- The key order used to model `nodes_to_sort.sort_by_key(|(i, _)| *i)`
(loader.rs:1365). -/
def byKey (a b : Nat × String × GltfNode) : Prop := a.1 ≤ b.1

instance : DecidableRel byKey := fun a b => Nat.decLe a.1 b.1

instance : IsTotal (Nat × String × GltfNode) byKey := ⟨fun a b => Nat.le_total a.1 b.1⟩

instance : IsTrans (Nat × String × GltfNode) byKey := ⟨fun _ _ _ h1 h2 => Nat.le_trans h1 h2⟩

/-- The result of `resolve_node_hierarchy` together with its two observable
warning effects: the number of "Unexpected child" warnings (loader.rs:1333,
guarded by `has_errored` so it is 0 or 1) and whether the
"GLTF model must be a tree" warning fired (loader.rs:1361-1363). -/
structure ResolveResult where
  nodes : List (String × GltfNode)
  childWarnings : Nat
  treeWarning : Bool

/-- The embedding of `resolve_node_hierarchy` (loader.rs:1317-1370). -/
def resolve_node_hierarchy (L : List NodeEntry) : ResolveResult :=
  let ip := initParents L
  let s := runLoop ip.1 (initQueue L) (initUnprocessed L) []
  { nodes := (List.insertionSort byKey s.resolved).map (fun e => (e.2.1, e.2.2))
    childWarnings := if ip.2 then 1 else 0
    treeWarning := decide (pendingCount s.unprocessed ≠ 0) }


/-! ### Properties of the parent-assignment pass -/

theorem assignChildren_length (ps : List (Option Nat)) (err : Bool) (i : Nat) (cs : List Nat) :
    (assignChildren ps err i cs).1.length = ps.length := by
  induction cs generalizing ps err with
  | nil => rfl
  | cons c cs ih =>
    simp only [assignChildren]
    by_cases h : c < ps.length
    · rw [if_pos h, ih, List.length_set]
    · rw [if_neg h, ih]

theorem assignChildren_snd (ps : List (Option Nat)) (err : Bool) (i : Nat) (cs : List Nat) :
    (assignChildren ps err i cs).2 = (err || cs.any (fun c => !(decide (c < ps.length)))) := by
  induction cs generalizing ps err with
  | nil => simp [assignChildren]
  | cons c cs ih =>
    simp only [assignChildren, List.any_cons]
    by_cases h : c < ps.length
    · rw [if_pos h, ih, List.length_set]
      simp [h]
    · rw [if_neg h, ih]
      simp [h, Bool.or_comm, Bool.or_assoc, Bool.or_left_comm]

theorem assignChildren_get (ps : List (Option Nat)) (err : Bool) (i : Nat) (cs : List Nat)
    (c : Nat) :
    (assignChildren ps err i cs).1[c]? =
      if c ∈ cs ∧ c < ps.length then some (some i) else ps[c]? := by
  induction cs generalizing ps err with
  | nil => simp [assignChildren]
  | cons c' cs ih =>
    simp only [assignChildren]
    by_cases h1 : c' < ps.length
    · rw [if_pos h1, ih, List.length_set]
      by_cases hm : c ∈ cs ∧ c < ps.length
      · rw [if_pos hm, if_pos ⟨List.mem_cons_of_mem _ hm.1, hm.2⟩]
      · rw [if_neg hm]
        by_cases hc : c = c'
        · subst hc
          rw [List.getElem?_set_self h1, if_pos ⟨List.mem_cons_self _ _, h1⟩]
        · rw [List.getElem?_set_ne (Ne.symm hc)]
          rw [if_neg]
          intro hx
          exact hm ⟨(List.mem_cons.mp hx.1).resolve_left hc, hx.2⟩
    · rw [if_neg h1, ih]
      by_cases hm : c ∈ cs ∧ c < ps.length
      · rw [if_pos hm, if_pos ⟨List.mem_cons_of_mem _ hm.1, hm.2⟩]
      · rw [if_neg hm, if_neg]
        intro hx
        rcases List.mem_cons.mp hx.1 with h | h
        · subst h
          exact h1 hx.2
        · exact hm ⟨h, hx.2⟩

theorem assignChildren_get_some (ps : List (Option Nat)) (err : Bool) (i : Nat) (cs : List Nat)
    (c j : Nat) (h : (assignChildren ps err i cs).1[c]? = some (some j)) :
    (j = i ∧ c ∈ cs ∧ c < ps.length) ∨ ps[c]? = some (some j) := by
  rw [assignChildren_get] at h
  by_cases hm : c ∈ cs ∧ c < ps.length
  · rw [if_pos hm] at h
    exact Or.inl ⟨(Option.some_inj.mp (Option.some_inj.mp h)).symm, hm⟩
  · rw [if_neg hm] at h
    exact Or.inr h

theorem initParentsAux_length (rest : List NodeEntry) (ps : List (Option Nat)) (err : Bool)
    (i : Nat) : (initParentsAux ps err i rest).1.length = ps.length := by
  induction rest generalizing ps err i with
  | nil => rfl
  | cons e rest ih =>
    simp only [initParentsAux]
    rw [ih, assignChildren_length]

theorem initParentsAux_append (xs ys : List NodeEntry) (ps : List (Option Nat)) (err : Bool)
    (i : Nat) :
    initParentsAux ps err i (xs ++ ys) =
      initParentsAux (initParentsAux ps err i xs).1 (initParentsAux ps err i xs).2
        (i + xs.length) ys := by
  induction xs generalizing ps err i with
  | nil => simp [initParentsAux]
  | cons e xs ih =>
    simp only [List.cons_append, initParentsAux]
    rw [List.append_eq, ih]
    congr 1
    simp only [List.length_cons]
    omega

theorem initParentsAux_get_of_not_mem (rest : List NodeEntry) (ps : List (Option Nat))
    (err : Bool) (i c : Nat) (h : ∀ e ∈ rest, c ∉ e.2.2) :
    (initParentsAux ps err i rest).1[c]? = ps[c]? := by
  induction rest generalizing ps err i with
  | nil => rfl
  | cons e rest ih =>
    simp only [initParentsAux]
    rw [ih _ _ _ (fun e' he' => h e' (List.mem_cons_of_mem _ he'))]
    rw [assignChildren_get, if_neg]
    intro hx
    exact h e (List.mem_cons_self _ _) hx.1

theorem initParentsAux_snd (rest : List NodeEntry) (ps : List (Option Nat)) (err : Bool)
    (i : Nat) :
    (initParentsAux ps err i rest).2 =
      (err || rest.any (fun e => e.2.2.any (fun c => !(decide (c < ps.length))))) := by
  induction rest generalizing ps err i with
  | nil => simp [initParentsAux]
  | cons e rest ih =>
    simp only [initParentsAux, List.any_cons]
    rw [ih, assignChildren_length, assignChildren_snd]
    simp [Bool.or_assoc]

theorem declOf_eq_of_getElem (L : List NodeEntry) (i : Nat) (e : NodeEntry)
    (h : L[i]? = some e) : declOf L i = e.2.2 := by
  simp [declOf, h]

theorem initParentsAux_sound (L : List NodeEntry) (d : List NodeEntry) :
    ∀ i, L.drop i = d → ∀ ps err, ps.length = L.length →
    (∀ c j, ps[c]? = some (some j) → j < L.length ∧ c ∈ declOf L j ∧ c < L.length) →
    ∀ c j, (initParentsAux ps err i d).1[c]? = some (some j) →
      j < L.length ∧ c ∈ declOf L j ∧ c < L.length := by
  induction d with
  | nil =>
    intro i _ ps err _ hps c j h
    exact hps c j h
  | cons e rest ih =>
    intro i hdrop ps err hlen hps c j h
    have hi : i < L.length := by
      by_contra hge
      rw [List.drop_eq_nil_of_le (Nat.le_of_not_lt hge)] at hdrop
      exact List.noConfusion hdrop
    have hie : L[i]? = some e := by
      have h0 : (L.drop i)[0]? = L[i]? := by
        simp [List.getElem?_drop]
      rw [hdrop] at h0
      simpa using h0.symm
    have hrest : L.drop (i + 1) = rest := by
      have := congrArg (List.drop 1) hdrop
      simpa [List.drop_drop, Nat.add_comm] using this
    simp only [initParentsAux] at h
    refine ih (i + 1) hrest _ _ ?_ ?_ c j h
    · rw [assignChildren_length, hlen]
    · intro c' j' h'
      rcases assignChildren_get_some _ _ _ _ _ _ h' with ⟨hj, hm, hlt⟩ | hold
      · rw [hlen] at hlt
        refine ⟨?_, ?_, hlt⟩
        · rw [hj]
          exact hi
        · rw [hj, declOf_eq_of_getElem L i e hie]
          exact hm
      · exact hps c' j' hold

theorem initParents_length (L : List NodeEntry) : (initParents L).1.length = L.length := by
  rw [initParents, initParentsAux_length, List.length_replicate]

theorem pf_sound (L : List NodeEntry) (c j : Nat) (h : pf L c = some j) :
    j < L.length ∧ c ∈ declOf L j ∧ c < L.length := by
  rw [pf, parentOf, join_eq_some] at h
  refine initParentsAux_sound L L 0 (by simp) _ false (by simp) ?_ c j h
  intro c' j' h'
  have : c' < L.length := by
    by_contra hge
    rw [List.getElem?_eq_none (by simpa using Nat.le_of_not_lt hge)] at h'
    exact Option.noConfusion h'
  rw [List.getElem?_replicate, if_pos this] at h'
  exact Option.noConfusion (Option.some_inj.mp h')

theorem pf_none_of_ge (L : List NodeEntry) (c : Nat) (h : L.length ≤ c) : pf L c = none := by
  rw [pf, parentOf, List.getElem?_eq_none]
  · rfl
  · rw [initParents_length]
    exact h

theorem pf_eq_of_unique_declarer (L : List NodeEntry) (i c : Nat) (hi : i < L.length)
    (hc : c ∈ declOf L i) (hcn : c < L.length)
    (hother : ∀ j, j < L.length → j ≠ i → c ∉ declOf L j) : pf L c = some i := by
  have hsplit : L = L.take i ++ L.drop i := (List.take_append_drop i L).symm
  have hdrop : L.drop i = L[i] :: L.drop (i + 1) := List.drop_eq_getElem_cons hi
  have htake : (L.take i).length = i := by
    rw [List.length_take]
    exact Nat.min_eq_left hi.le
  rw [pf, parentOf, initParents]
  conv_lhs => rw [hsplit]
  rw [initParentsAux_append, Nat.zero_add, htake, hdrop]
  simp only [initParentsAux]
  rw [initParentsAux_get_of_not_mem]
  · rw [assignChildren_get, if_pos]
    · rfl
    · constructor
      · have hdi : declOf L i = L[i].2.2 := by
          simp [declOf, List.getElem?_eq_getElem hi]
        rw [← hdi]
        exact hc
      · rw [initParentsAux_length, List.length_replicate, ← hdrop, ← hsplit]
        exact hcn
  · intro e' he' hmem
    rcases List.getElem_of_mem he' with ⟨k, hk, hke⟩
    have hk2 : L[i + 1 + k]? = some e' := by
      have : (L.drop (i + 1))[k]? = some e' := by
        rw [List.getElem?_eq_getElem hk, hke]
      rw [List.getElem?_drop] at this
      exact this
    have hkl : i + 1 + k < L.length := getElem?_some_lt hk2
    exact hother (i + 1 + k) hkl (by omega)
      (by rw [declOf_eq_of_getElem L _ e' hk2]; exact hmem)

theorem initParents_snd_iff (L : List NodeEntry) :
    (initParents L).2 = true ↔ ∃ e ∈ L, ∃ c ∈ e.2.2, L.length ≤ c := by
  rw [initParents, initParentsAux_snd, List.length_replicate]
  simp [List.any_eq_true]


/-! ### Denotational resolvability

A node index is resolvable within `k` rounds when every declared child is
owned by it in the final parent map and is itself resolvable within `k - 1`
rounds.  This is the least-fixpoint characterization of the work-queue
peeling, stated independently of the queue mechanics. -/

def resolvableWithin (L : List NodeEntry) : Nat → Nat → Bool
  | 0, _ => false
  | k + 1, i => (declOf L i).all (fun c => (pf L c == some i) && resolvableWithin L k c)

theorem resolvableWithin_mono (L : List NodeEntry) :
    ∀ k k' i, k ≤ k' → resolvableWithin L k i = true → resolvableWithin L k' i = true := by
  intro k
  induction k with
  | zero =>
    intro k' i _ h
    simp [resolvableWithin] at h
  | succ k ih =>
    intro k' i hk h
    obtain ⟨k'', rfl⟩ : ∃ m, k' = m + 1 := ⟨k' - 1, by omega⟩
    simp only [resolvableWithin, List.all_eq_true] at h ⊢
    intro c hc
    have hcc := h c hc
    simp only [Bool.and_eq_true] at hcc ⊢
    exact ⟨hcc.1, ih k'' c (by omega) hcc.2⟩

/-! ### The loop invariant of the work-queue phase -/

/-- The original indices of the resolved entries, in completion order. -/
def resKeys (res : List (Nat × String × GltfNode)) : List Nat := res.map (fun e => e.1)

/-- The resolved children of node `i`, in completion order: the node values
of the resolved entries whose final parent is `i`. -/
def childrenOfIn (L : List NodeEntry) (i : Nat) (res : List (Nat × String × GltfNode)) :
    List GltfNode :=
  (res.filter (fun e => pf L e.1 == some i)).map (fun e => e.2.2)

theorem appendChildren_nil (nd : GltfNode) : nd.appendChildren [] = nd := by
  cases nd
  simp [GltfNode.appendChildren]

theorem appendChildren_push (nd : GltfNode) (xs : List GltfNode) (c : GltfNode) :
    (nd.appendChildren xs).pushChild c = nd.appendChildren (xs ++ [c]) := by
  cases nd
  simp [GltfNode.appendChildren, GltfNode.pushChild]

theorem resKeys_append (res : List (Nat × String × GltfNode)) (e : Nat × String × GltfNode) :
    resKeys (res ++ [e]) = resKeys res ++ [e.1] := by
  simp [resKeys]

theorem childrenOfIn_append (L : List NodeEntry) (i : Nat)
    (res : List (Nat × String × GltfNode)) (e : Nat × String × GltfNode) :
    childrenOfIn L i (res ++ [e]) =
      childrenOfIn L i res ++ (if pf L e.1 == some i then [e.2.2] else []) := by
  simp only [childrenOfIn, List.filter_append, List.map_append, List.filter_singleton]
  by_cases h : (pf L e.1 == some i) = true
  · simp [h]
  · simp [h]

theorem resKeys_mem_getElem {res : List (Nat × String × GltfNode)} {i : Nat}
    (h : i ∈ resKeys res) :
    ∃ (k : Nat) (l : String) (nd : GltfNode), res[k]? = some (i, l, nd) := by
  rcases List.mem_map.mp h with ⟨e, he, hei⟩
  rcases List.getElem_of_mem he with ⟨k, hk, hke⟩
  refine ⟨k, e.2.1, e.2.2, ?_⟩
  rw [List.getElem?_eq_getElem hk, hke]
  cases e
  simp at hei
  simp [hei]

theorem uget_set_self {α : Type} {u : List (Option α)} {i : Nat} (h : i < u.length)
    (v : Option α) : ((u.set i v)[i]?).join = v := by
  rw [List.getElem?_set_self h]
  cases v <;> rfl

theorem uget_set_ne {α : Type} {u : List (Option α)} {i j : Nat} (h : i ≠ j)
    (v : Option α) : ((u.set i v)[j]?).join = (u[j]?).join := by
  rw [List.getElem?_set_ne h]

/-- The invariant tying a reachable loop state to the input list: the
resolved keys and the live `unprocessed_nodes` entries partition the input
indices; queue members are exactly the live entries whose pending set is
empty; a live entry holds its input label, its input node extended by its
already-resolved children in completion order, and a pending set holding
the declared children not yet consumed; and every resolved entry was
resolved after all of its declared children. -/
structure LoopInv (L : List NodeEntry) (q : List Nat)
    (u : List (Option (String × GltfNode × List Nat)))
    (res : List (Nat × String × GltfNode)) : Prop where
  ulen : u.length = L.length
  res_lt : ∀ e ∈ res, e.1 < L.length
  res_nodup : (resKeys res).Nodup
  partition : ∀ i, i < L.length → (((u[i]?).join = none) ↔ i ∈ resKeys res)
  q_nodup : q.Nodup
  q_mem : ∀ i ∈ q, ∃ (l : String) (nd : GltfNode), (u[i]?).join = some (l, nd, [])
  entry_label : ∀ (i : Nat) (l : String) (nd : GltfNode) (ch : List Nat),
    (u[i]?).join = some (l, nd, ch) → l = labelOf L i
  entry_ch_nodup : ∀ (i : Nat) (l : String) (nd : GltfNode) (ch : List Nat),
    (u[i]?).join = some (l, nd, ch) → ch.Nodup
  entry_ch_mem : ∀ (i : Nat) (l : String) (nd : GltfNode) (ch : List Nat),
    (u[i]?).join = some (l, nd, ch) →
    ∀ c, c ∈ ch ↔ (c ∈ declOf L i ∧ ¬(pf L c = some i ∧ c ∈ resKeys res))
  entry_node : ∀ (i : Nat) (l : String) (nd : GltfNode) (ch : List Nat),
    (u[i]?).join = some (l, nd, ch) →
    nd = (nodeOf L i).appendChildren (childrenOfIn L i res)
  empty_in_q : ∀ (i : Nat) (l : String) (nd : GltfNode),
    (u[i]?).join = some (l, nd, []) → i ∈ q
  res_spec : ∀ (k i : Nat) (l : String) (nd : GltfNode), res[k]? = some (i, l, nd) →
    labelOf L i = l ∧
    nd = (nodeOf L i).appendChildren (childrenOfIn L i (res.take k)) ∧
    ∀ c ∈ declOf L i, pf L c = some i ∧ c ∈ resKeys (res.take k)


theorem initUnprocessed_join (L : List NodeEntry) (i : Nat) :
    ((initUnprocessed L)[i]?).join = (L[i]?).map (fun e => (e.1, e.2.1, e.2.2.dedup)) := by
  rw [initUnprocessed, List.getElem?_map]
  cases L[i]? <;> rfl

theorem initUnprocessed_join_eq {L : List NodeEntry} {i : Nat} {l : String} {nd : GltfNode}
    {ch : List Nat} (h : ((initUnprocessed L)[i]?).join = some (l, nd, ch)) :
    l = labelOf L i ∧ nd = nodeOf L i ∧ ch = (declOf L i).dedup := by
  rw [initUnprocessed_join] at h
  cases he : L[i]? with
  | none =>
    rw [he] at h
    exact Option.noConfusion h
  | some e =>
    rw [he] at h
    have h' : (e.1, e.2.1, e.2.2.dedup) = (l, nd, ch) := by
      simpa using h
    have h1 : e.1 = l := congrArg Prod.fst h'
    have h2 : e.2.1 = nd := congrArg (fun x => x.2.1) h'
    have h3 : e.2.2.dedup = ch := congrArg (fun x => x.2.2) h'
    refine ⟨?_, ?_, ?_⟩
    · rw [← h1]
      simp [labelOf, he]
    · rw [← h2]
      simp [nodeOf, he]
    · rw [← h3]
      simp [declOf, he]

theorem initUnprocessed_join_lt {L : List NodeEntry} {i : Nat} {l : String} {nd : GltfNode}
    {ch : List Nat} (h : ((initUnprocessed L)[i]?).join = some (l, nd, ch)) :
    i < L.length := by
  have h2 := getElem?_some_lt (join_eq_some.mp h)
  simpa [initUnprocessed] using h2

theorem declOf_dedup_of_getElem {L : List NodeEntry} {i : Nat} (hi : i < L.length) :
    (declOf L i).dedup = L[i].2.2.dedup := by
  simp [declOf, List.getElem?_eq_getElem hi]

theorem LoopInv_init (L : List NodeEntry) : LoopInv L (initQueue L) (initUnprocessed L) [] := by
  refine ⟨?_, ?_, ?_, ?_, ?_, ?_, ?_, ?_, ?_, ?_, ?_, ?_⟩
  · simp [initUnprocessed]
  · intro e he
    simp at he
  · simp [resKeys]
  · intro i hi
    rw [initUnprocessed_join, List.getElem?_eq_getElem hi]
    simp [resKeys]
  · exact (List.nodup_range _).filter _
  · intro i hi
    simp only [initQueue, List.mem_filter, List.mem_range] at hi
    obtain ⟨hilt, hdei⟩ := hi
    rw [initUnprocessed_join, List.getElem?_eq_getElem hilt]
    refine ⟨L[i].1, L[i].2.1, ?_⟩
    have hnil : L[i].2.2.dedup = [] := by
      rw [← declOf_dedup_of_getElem hilt]
      exact List.isEmpty_iff.mp hdei
    simp [hnil]
  · intro i l nd ch h
    exact (initUnprocessed_join_eq h).1
  · intro i l nd ch h
    rw [(initUnprocessed_join_eq h).2.2]
    exact List.nodup_dedup _
  · intro i l nd ch h c
    rw [(initUnprocessed_join_eq h).2.2]
    simp [List.mem_dedup, resKeys]
  · intro i l nd ch h
    rw [(initUnprocessed_join_eq h).2.1]
    simp [childrenOfIn, appendChildren_nil]
  · intro i l nd h
    have hlt := initUnprocessed_join_lt h
    have hch := (initUnprocessed_join_eq h).2.2
    simp only [initQueue, List.mem_filter, List.mem_range]
    refine ⟨hlt, ?_⟩
    rw [← hch]
    simp
  · intro k i l nd h
    simp at h

/-! ### Unfolding equations of the loop -/

theorem runLoop_nil (parents : List (Option Nat)) (u : List (Option (String × GltfNode × List Nat)))
    (res : List (Nat × String × GltfNode)) : runLoop parents [] u res = ⟨[], u, res⟩ := by
  rw [runLoop]

theorem runLoop_skip (parents : List (Option Nat)) (index : Nat) (rest : List Nat)
    (u : List (Option (String × GltfNode × List Nat))) (res : List (Nat × String × GltfNode))
    (h1 : (u[index]?).join = none) :
    runLoop parents (index :: rest) u res = runLoop parents rest u res := by
  rw [runLoop, h1]

theorem runLoop_resolve_noparent (parents : List (Option Nat)) (index : Nat) (rest : List Nat)
    (u : List (Option (String × GltfNode × List Nat))) (res : List (Nat × String × GltfNode))
    (label : String) (node : GltfNode) (ch : List Nat)
    (h1 : (u[index]?).join = some (label, node, ch))
    (hp : parentOf parents index = none) :
    runLoop parents (index :: rest) u res =
      runLoop parents rest (u.set index none) (res ++ [(index, label, node)]) := by
  rw [runLoop, h1, hp]

theorem runLoop_resolve_badparent (parents : List (Option Nat)) (index : Nat) (rest : List Nat)
    (u : List (Option (String × GltfNode × List Nat))) (res : List (Nat × String × GltfNode))
    (label : String) (node : GltfNode) (ch : List Nat) (p : Nat)
    (h1 : (u[index]?).join = some (label, node, ch))
    (hp : parentOf parents index = some p)
    (h2 : ((u.set index none)[p]?).join = none) :
    runLoop parents (index :: rest) u res =
      runLoop parents rest (u.set index none) (res ++ [(index, label, node)]) := by
  rw [runLoop, h1, hp]
  dsimp only
  rw [h2]

theorem runLoop_resolve_parent (parents : List (Option Nat)) (index : Nat) (rest : List Nat)
    (u : List (Option (String × GltfNode × List Nat))) (res : List (Nat × String × GltfNode))
    (label : String) (node : GltfNode) (ch : List Nat) (p : Nat) (plabel : String)
    (pnode : GltfNode) (pchildren : List Nat)
    (h1 : (u[index]?).join = some (label, node, ch))
    (hp : parentOf parents index = some p)
    (h2 : ((u.set index none)[p]?).join = some (plabel, pnode, pchildren)) :
    runLoop parents (index :: rest) u res =
      runLoop parents
        (if (pchildren.erase index).isEmpty then rest ++ [p] else rest)
        ((u.set index none).set p (some (plabel, pnode.pushChild node, pchildren.erase index)))
        (res ++ [(index, label, node)]) := by
  rw [runLoop, h1, hp]
  dsimp only
  rw [h2]

/-! ### Preservation of the loop invariant -/

theorem set_none_entry {u : List (Option (String × GltfNode × List Nat))} {index i : Nat}
    {l : String} {nd : GltfNode} {ch : List Nat} (hiu : index < u.length)
    (h' : (((u.set index none)[i]?)).join = some (l, nd, ch)) :
    index ≠ i ∧ (u[i]?).join = some (l, nd, ch) := by
  have hne : index ≠ i := by
    rintro rfl
    rw [uget_set_self hiu] at h'
    exact Option.noConfusion h'
  rw [uget_set_ne hne] at h'
  exact ⟨hne, h'⟩

theorem resKeys_take_append (res : List (Nat × String × GltfNode))
    (e : Nat × String × GltfNode) (k : Nat) (hk : k ≤ res.length) :
    (res ++ [e]).take k = res.take k := by
  rw [List.take_append_eq_append_take, Nat.sub_eq_zero_of_le hk, List.take_zero,
    List.append_nil]

/-- Preservation of the loop invariant by a resolution step whose popped
node has no recorded parent. -/
theorem LoopInv_stepA (L : List NodeEntry) (index : Nat) (rest : List Nat)
    (u : List (Option (String × GltfNode × List Nat))) (res : List (Nat × String × GltfNode))
    (label : String) (node : GltfNode)
    (hInv : LoopInv L (index :: rest) u res)
    (h1 : (u[index]?).join = some (label, node, []))
    (hpf : pf L index = none) :
    LoopInv L rest (u.set index none) (res ++ [(index, label, node)]) := by
  have hiu : index < u.length := getElem?_some_lt (join_eq_some.mp h1)
  have hin : index < L.length := by rw [← hInv.ulen]; exact hiu
  have hires : index ∉ resKeys res := by
    intro hmem
    have hnone := (hInv.partition index hin).mpr hmem
    rw [h1] at hnone
    exact Option.noConfusion hnone
  have hkeys : resKeys (res ++ [(index, label, node)]) = resKeys res ++ [index] :=
    resKeys_append res _
  refine ⟨?_, ?_, ?_, ?_, ?_, ?_, ?_, ?_, ?_, ?_, ?_, ?_⟩
  · rw [List.length_set]
    exact hInv.ulen
  · intro e he
    rcases List.mem_append.mp he with h | h
    · exact hInv.res_lt e h
    · rcases List.mem_singleton.mp h with rfl
      exact hin
  · rw [hkeys]
    refine List.Nodup.append hInv.res_nodup (List.nodup_singleton _) ?_
    intro a ha hb
    rcases List.mem_singleton.mp hb with rfl
    exact hires ha
  · intro i hi
    by_cases hip : i = index
    · subst hip
      rw [uget_set_self hiu]
      simp [hkeys]
    · rw [uget_set_ne (fun h => hip h.symm)]
      rw [hInv.partition i hi, hkeys]
      simp [hip]
  · exact hInv.q_nodup.of_cons
  · intro i hi
    obtain ⟨l', nd', hl'⟩ := hInv.q_mem i (List.mem_cons_of_mem _ hi)
    have hne : index ≠ i := by
      rintro rfl
      exact (List.nodup_cons.mp hInv.q_nodup).1 hi
    exact ⟨l', nd', by rw [uget_set_ne hne]; exact hl'⟩
  · intro i l' nd' ch' h'
    obtain ⟨hne, h'⟩ := set_none_entry hiu h'
    exact hInv.entry_label i _ _ _ h'
  · intro i l' nd' ch' h'
    obtain ⟨hne, h'⟩ := set_none_entry hiu h'
    exact hInv.entry_ch_nodup i _ _ _ h'
  · intro i l' nd' ch' h' c
    obtain ⟨hne, h'⟩ := set_none_entry hiu h'
    rw [hInv.entry_ch_mem i _ _ _ h' c]
    refine and_congr_right fun _ => not_congr (and_congr_right fun hpfc => ?_)
    have hcne : c ≠ index := by
      rintro rfl
      rw [hpf] at hpfc
      exact Option.noConfusion hpfc
    rw [hkeys]
    simp [hcne]
  · intro i l' nd' ch' h'
    obtain ⟨hne, h'⟩ := set_none_entry hiu h'
    rw [hInv.entry_node i _ _ _ h', childrenOfIn_append]
    simp [hpf]
  · intro i l' nd' h'
    obtain ⟨hne, h'⟩ := set_none_entry hiu h'
    have hmem := hInv.empty_in_q i _ _ h'
    rcases List.mem_cons.mp hmem with h | h
    · exact absurd h.symm hne
    · exact h
  · intro k i l' nd' hk
    by_cases hkl : k < res.length
    · rw [List.getElem?_append, if_pos hkl] at hk
      have hold := hInv.res_spec k i l' nd' hk
      rw [resKeys_take_append res _ k (Nat.le_of_lt hkl)]
      exact hold
    · rw [List.getElem?_append, if_neg hkl] at hk
      have hk0 : k - res.length = 0 := by
        rcases Nat.lt_or_ge (k - res.length) 1 with h | h
        · omega
        · rw [List.getElem?_eq_none (by simpa using h)] at hk
          exact Option.noConfusion hk
      have hkk : k = res.length := by omega
      rw [hk0] at hk
      have hk'' := hk
      simp only [List.getElem?_cons_zero, Option.some_inj, Prod.mk.injEq] at hk''
      obtain ⟨rfl, rfl, rfl⟩ := hk''
      subst hkk
      rw [List.take_left]
      refine ⟨(hInv.entry_label _ _ _ _ h1).symm, hInv.entry_node _ _ _ _ h1, ?_⟩
      intro c hc
      have hmem := hInv.entry_ch_mem _ _ _ _ h1 c
      simp only [List.not_mem_nil, false_iff] at hmem
      exact not_not.mp (fun hn => hmem ⟨hc, hn⟩)

theorem resKeys_take (res : List (Nat × String × GltfNode)) (k : Nat) :
    resKeys (res.take k) = (resKeys res).take k := by
  simp [resKeys, List.map_take]

/-- The parent of a just-popped node is always live in `unprocessed_nodes`:
the `unwrap` at loader.rs:1350 cannot fail on reachable states. -/
theorem LoopInv_stepD (L : List NodeEntry) (index : Nat) (rest : List Nat)
    (u : List (Option (String × GltfNode × List Nat))) (res : List (Nat × String × GltfNode))
    (label : String) (node : GltfNode) (p : Nat)
    (hInv : LoopInv L (index :: rest) u res)
    (h1 : (u[index]?).join = some (label, node, []))
    (hpf : pf L index = some p) :
    ∃ (plabel : String) (pnode : GltfNode) (pchildren : List Nat),
      ((u.set index none)[p]?).join = some (plabel, pnode, pchildren) := by
  have hiu : index < u.length := getElem?_some_lt (join_eq_some.mp h1)
  have hin : index < L.length := by rw [← hInv.ulen]; exact hiu
  have hires : index ∉ resKeys res := by
    intro hmem
    have hnone := (hInv.partition index hin).mpr hmem
    rw [h1] at hnone
    exact Option.noConfusion hnone
  obtain ⟨hp_lt, hp_decl, _⟩ := pf_sound L index p hpf
  have hpne : p ≠ index := by
    intro hpeq
    rw [hpeq] at hp_decl
    have hmem := hInv.entry_ch_mem index _ _ _ h1 index
    simp only [List.not_mem_nil, false_iff] at hmem
    exact hmem ⟨hp_decl, fun hx => hires hx.2⟩
  have hup : (u[p]?).join ≠ none := by
    intro hnone
    have hpres : p ∈ resKeys res := (hInv.partition p hp_lt).mp hnone
    obtain ⟨k, l', nd', hk⟩ := resKeys_mem_getElem hpres
    have hspec := (hInv.res_spec k p l' nd' hk).2.2 index hp_decl
    refine hires ?_
    have := hspec.2
    rw [resKeys_take] at this
    exact List.mem_of_mem_take this
  cases h2 : (u[p]?).join with
  | none => exact absurd h2 hup
  | some e =>
    refine ⟨e.1, e.2.1, e.2.2, ?_⟩
    rw [uget_set_ne (Ne.symm hpne), h2]

/-- The facts recorded by `res_spec` for the entry appended by a resolution
step; this is shared by both preservation lemmas. -/
theorem res_spec_append (L : List NodeEntry) (index : Nat) (rest : List Nat)
    (u : List (Option (String × GltfNode × List Nat))) (res : List (Nat × String × GltfNode))
    (label : String) (node : GltfNode)
    (hInv : LoopInv L (index :: rest) u res)
    (h1 : (u[index]?).join = some (label, node, [])) :
    ∀ (k i : Nat) (l : String) (nd : GltfNode),
      (res ++ [(index, label, node)])[k]? = some (i, l, nd) →
      labelOf L i = l ∧
      nd = (nodeOf L i).appendChildren
        (childrenOfIn L i ((res ++ [(index, label, node)]).take k)) ∧
      ∀ c ∈ declOf L i, pf L c = some i ∧ c ∈ resKeys ((res ++ [(index, label, node)]).take k) := by
  intro k i l' nd' hk
  by_cases hkl : k < res.length
  · rw [List.getElem?_append, if_pos hkl] at hk
    have hold := hInv.res_spec k i l' nd' hk
    rw [resKeys_take_append res _ k (Nat.le_of_lt hkl)]
    exact hold
  · rw [List.getElem?_append, if_neg hkl] at hk
    have hk0 : k - res.length = 0 := by
      rcases Nat.lt_or_ge (k - res.length) 1 with h | h
      · omega
      · rw [List.getElem?_eq_none (by simpa using h)] at hk
        exact Option.noConfusion hk
    have hkk : k = res.length := by omega
    rw [hk0] at hk
    have hk'' := hk
    simp only [List.getElem?_cons_zero, Option.some_inj, Prod.mk.injEq] at hk''
    obtain ⟨rfl, rfl, rfl⟩ := hk''
    subst hkk
    rw [List.take_left]
    refine ⟨(hInv.entry_label _ _ _ _ h1).symm, hInv.entry_node _ _ _ _ h1, ?_⟩
    intro c hc
    have hmem := hInv.entry_ch_mem _ _ _ _ h1 c
    simp only [List.not_mem_nil, false_iff] at hmem
    exact not_not.mp (fun hn => hmem ⟨hc, hn⟩)

/-- Preservation of the loop invariant by a resolution step whose popped
node has a live parent entry. -/
theorem LoopInv_stepB (L : List NodeEntry) (index : Nat) (rest : List Nat)
    (u : List (Option (String × GltfNode × List Nat))) (res : List (Nat × String × GltfNode))
    (label : String) (node : GltfNode) (p : Nat) (plabel : String) (pnode : GltfNode)
    (pchildren : List Nat)
    (hInv : LoopInv L (index :: rest) u res)
    (h1 : (u[index]?).join = some (label, node, []))
    (hpf : pf L index = some p)
    (h2 : ((u.set index none)[p]?).join = some (plabel, pnode, pchildren)) :
    LoopInv L (if (pchildren.erase index).isEmpty then rest ++ [p] else rest)
      ((u.set index none).set p (some (plabel, pnode.pushChild node, pchildren.erase index)))
      (res ++ [(index, label, node)]) := by
  have hiu : index < u.length := getElem?_some_lt (join_eq_some.mp h1)
  have hin : index < L.length := by rw [← hInv.ulen]; exact hiu
  have hires : index ∉ resKeys res := by
    intro hmem
    have hnone := (hInv.partition index hin).mpr hmem
    rw [h1] at hnone
    exact Option.noConfusion hnone
  obtain ⟨hp_lt, hp_decl, _⟩ := pf_sound L index p hpf
  obtain ⟨hpi, h2'⟩ := set_none_entry hiu h2
  have hpu : p < u.length := getElem?_some_lt (join_eq_some.mp h2')
  have hpres : p ∉ resKeys res := by
    intro hmem
    have hnone := (hInv.partition p hp_lt).mpr hmem
    rw [h2'] at hnone
    exact Option.noConfusion hnone
  have hmemP : index ∈ pchildren := by
    rw [hInv.entry_ch_mem p _ _ _ h2' index]
    exact ⟨hp_decl, fun hx => hires hx.2⟩
  have hpchnd : pchildren.Nodup := hInv.entry_ch_nodup p _ _ _ h2'
  have hqP : p ∉ index :: rest := by
    intro hq
    obtain ⟨l0, nd0, h0⟩ := hInv.q_mem p hq
    rw [h2'] at h0
    have hnil : pchildren = [] := congrArg (fun x => x.2.2) (Option.some_inj.mp h0)
    rw [hnil] at hmemP
    exact List.not_mem_nil _ hmemP
  have hprest : p ∉ rest := fun h => hqP (List.mem_cons_of_mem _ h)
  have hkeys : resKeys (res ++ [(index, label, node)]) = resKeys res ++ [index] :=
    resKeys_append res _
  have hlen1 : p < (u.set index none).length := by rw [List.length_set]; exact hpu
  have hu2p : (((u.set index none).set p
      (some (plabel, pnode.pushChild node, pchildren.erase index)))[p]?).join =
      some (plabel, pnode.pushChild node, pchildren.erase index) :=
    uget_set_self hlen1 _
  have hu2other : ∀ j, j ≠ p → j ≠ index →
      (((u.set index none).set p
        (some (plabel, pnode.pushChild node, pchildren.erase index)))[j]?).join =
      (u[j]?).join := by
    intro j hjp hji
    rw [uget_set_ne (Ne.symm hjp), uget_set_ne (Ne.symm hji)]
  have hu2index : (((u.set index none).set p
      (some (plabel, pnode.pushChild node, pchildren.erase index)))[index]?).join = none := by
    rw [uget_set_ne (Ne.symm hpi), uget_set_self hiu]
  refine ⟨?_, ?_, ?_, ?_, ?_, ?_, ?_, ?_, ?_, ?_, ?_, ?_⟩
  · rw [List.length_set, List.length_set]
    exact hInv.ulen
  · intro e he
    rcases List.mem_append.mp he with h | h
    · exact hInv.res_lt e h
    · rcases List.mem_singleton.mp h with rfl
      exact hin
  · rw [hkeys]
    refine List.Nodup.append hInv.res_nodup (List.nodup_singleton _) ?_
    intro a ha hb
    rcases List.mem_singleton.mp hb with rfl
    exact hires ha
  · intro i hi
    by_cases hip : i = p
    · subst hip
      rw [hu2p, hkeys]
      simp only [List.mem_append, List.mem_singleton]
      constructor
      · intro hx
        exact Option.noConfusion hx
      · intro hx
        rcases hx with hx | hx
        · exact absurd hx hpres
        · exact absurd hx (Ne.symm hpi)
    · by_cases hii : i = index
      · subst hii
        rw [hu2index, hkeys]
        simp
      · rw [hu2other i hip hii, hInv.partition i hi, hkeys]
        simp [hii]
  · by_cases he : (pchildren.erase index).isEmpty
    · rw [if_pos he]
      refine List.Nodup.append hInv.q_nodup.of_cons (List.nodup_singleton _) ?_
      intro a ha hb
      rcases List.mem_singleton.mp hb with rfl
      exact hprest ha
    · rw [if_neg he]
      exact hInv.q_nodup.of_cons
  · intro i hi
    have hi' : i ∈ rest ∨ i = p := by
      by_cases he : (pchildren.erase index).isEmpty
      · rw [if_pos he] at hi
        rcases List.mem_append.mp hi with h | h
        · exact Or.inl h
        · exact Or.inr (List.mem_singleton.mp h)
      · rw [if_neg he] at hi
        exact Or.inl hi
    rcases hi' with hi' | hi'
    · have hii : i ≠ index := by
        rintro rfl
        exact (List.nodup_cons.mp hInv.q_nodup).1 hi'
      have hip : i ≠ p := by
        rintro rfl
        exact hprest hi'
      obtain ⟨l0, nd0, h0⟩ := hInv.q_mem i (List.mem_cons_of_mem _ hi')
      refine ⟨l0, nd0, ?_⟩
      rw [hu2other i hip hii]
      exact h0
    · subst hi'
      by_cases he : (pchildren.erase index).isEmpty
      · refine ⟨plabel, pnode.pushChild node, ?_⟩
        rw [hu2p, List.isEmpty_iff.mp he]
      · exfalso
        rw [if_neg he] at hi
        exact hprest hi
  · intro i l' nd' ch' h'
    by_cases hip : i = p
    · subst hip
      rw [hu2p] at h'
      have hl' : plabel = l' := congrArg Prod.fst (Option.some_inj.mp h')
      rw [← hl']
      exact hInv.entry_label _ _ _ _ h2'
    · by_cases hii : i = index
      · subst hii
        rw [hu2index] at h'
        exact Option.noConfusion h'
      · rw [hu2other i hip hii] at h'
        exact hInv.entry_label i _ _ _ h'
  · intro i l' nd' ch' h'
    by_cases hip : i = p
    · subst hip
      rw [hu2p] at h'
      have hch' : pchildren.erase index = ch' :=
        congrArg (fun x => x.2.2) (Option.some_inj.mp h')
      rw [← hch']
      exact List.Nodup.erase _ hpchnd
    · by_cases hii : i = index
      · subst hii
        rw [hu2index] at h'
        exact Option.noConfusion h'
      · rw [hu2other i hip hii] at h'
        exact hInv.entry_ch_nodup i _ _ _ h'
  · intro i l' nd' ch' h' c
    by_cases hip : i = p
    · subst hip
      rw [hu2p] at h'
      have hch' : pchildren.erase index = ch' :=
        congrArg (fun x => x.2.2) (Option.some_inj.mp h')
      rw [← hch', hpchnd.mem_erase_iff, hInv.entry_ch_mem _ _ _ _ h2' c]
      by_cases hc : c = index
      · rw [hc, hkeys]
        simp [hpf, hp_decl]
      · rw [hkeys]
        simp [hc]
    · by_cases hii : i = index
      · subst hii
        rw [hu2index] at h'
        exact Option.noConfusion h'
      · rw [hu2other i hip hii] at h'
        rw [hInv.entry_ch_mem i _ _ _ h' c]
        refine and_congr_right fun _ => not_congr (and_congr_right fun hpfc => ?_)
        have hcne : c ≠ index := by
          rintro rfl
          rw [hpf] at hpfc
          exact hip (Option.some_inj.mp hpfc).symm
        rw [hkeys]
        simp [hcne]
  · intro i l' nd' ch' h'
    by_cases hip : i = p
    · subst hip
      rw [hu2p] at h'
      have hnd' : pnode.pushChild node = nd' :=
        congrArg (fun x => x.2.1) (Option.some_inj.mp h')
      rw [← hnd', childrenOfIn_append, hInv.entry_node _ _ _ _ h2', appendChildren_push]
      have hbe : (pf L ((index, label, node) : Nat × String × GltfNode).1 == some i) = true := by
        simp [hpf]
      rw [hbe]
      simp
    · by_cases hii : i = index
      · subst hii
        rw [hu2index] at h'
        exact Option.noConfusion h'
      · rw [hu2other i hip hii] at h'
        rw [hInv.entry_node i _ _ _ h', childrenOfIn_append]
        have hbe : (pf L ((index, label, node) : Nat × String × GltfNode).1 == some i) = false := by
          show (pf L index == some i) = false
          rw [hpf]
          simp [Ne.symm hip]
        rw [hbe]
        simp
  · intro i l' nd' h'
    by_cases hip : i = p
    · subst hip
      rw [hu2p] at h'
      have hch' : pchildren.erase index = [] :=
        congrArg (fun x => x.2.2) (Option.some_inj.mp h')
      have he : (pchildren.erase index).isEmpty := by
        rw [hch']
        rfl
      rw [if_pos he]
      exact List.mem_append_right _ (List.mem_singleton_self _)
    · by_cases hii : i = index
      · subst hii
        rw [hu2index] at h'
        exact Option.noConfusion h'
      · rw [hu2other i hip hii] at h'
        have hq := hInv.empty_in_q i _ _ h'
        have hirest : i ∈ rest := by
          rcases List.mem_cons.mp hq with h | h
          · exact absurd h hii
          · exact h
        by_cases he : (pchildren.erase index).isEmpty
        · rw [if_pos he]
          exact List.mem_append_left _ hirest
        · rw [if_neg he]
          exact hirest
  · exact res_spec_append L index rest u res label node hInv h1

/-- Running the work queue from any state satisfying the invariant reaches
a final state (empty queue) still satisfying the invariant. -/
theorem runLoop_final (L : List NodeEntry) :
    ∀ (q : List Nat) (u : List (Option (String × GltfNode × List Nat)))
      (res : List (Nat × String × GltfNode)), LoopInv L q u res →
      (runLoop (initParents L).1 q u res).queue = [] ∧
      LoopInv L [] (runLoop (initParents L).1 q u res).unprocessed
        (runLoop (initParents L).1 q u res).resolved := by
  intro q u res
  induction q, u, res using runLoop.induct (initParents L).1 with
  | case1 u res =>
    intro hInv
    rw [runLoop_nil]
    exact ⟨rfl, hInv⟩
  | case2 index rest u res h1 ih =>
    intro hInv
    obtain ⟨l0, nd0, h0⟩ := hInv.q_mem index (List.mem_cons_self _ _)
    rw [h1] at h0
    exact Option.noConfusion h0
  | case3 index rest u res label node ch h1 u1 res1 hp ih =>
    intro hInv
    obtain ⟨l0, nd0, h0⟩ := hInv.q_mem index (List.mem_cons_self _ _)
    have hch : ch = [] := by
      rw [h1] at h0
      exact (congrArg (fun x => x.2.2) (Option.some_inj.mp h0))
    subst hch
    rw [runLoop_resolve_noparent _ _ _ _ _ _ _ _ h1 hp]
    exact ih (LoopInv_stepA L index rest u res label node hInv h1 hp)
  | case4 index rest u res label node ch h1 u1 res1 p hp h2 ih =>
    intro hInv
    obtain ⟨l0, nd0, h0⟩ := hInv.q_mem index (List.mem_cons_self _ _)
    have hch : ch = [] := by
      rw [h1] at h0
      exact (congrArg (fun x => x.2.2) (Option.some_inj.mp h0))
    subst hch
    obtain ⟨pl, pn, pc, h2'⟩ := LoopInv_stepD L index rest u res label node p hInv h1 hp
    rw [h2] at h2'
    exact Option.noConfusion h2'
  | case5 index rest u res label node ch h1 u1 res1 p hp plabel pnode pchildren h2 pch u2 q2 ih =>
    intro hInv
    obtain ⟨l0, nd0, h0⟩ := hInv.q_mem index (List.mem_cons_self _ _)
    have hch : ch = [] := by
      rw [h1] at h0
      exact (congrArg (fun x => x.2.2) (Option.some_inj.mp h0))
    subst hch
    rw [runLoop_resolve_parent _ _ _ _ _ _ _ _ _ _ _ _ h1 hp h2]
    exact ih (LoopInv_stepB L index rest u res label node p plabel pnode pchildren hInv h1
      hp h2)


/-! ### Extraction from the final state -/

theorem mem_of_getElem?_eq {α : Type} {l : List α} {k : Nat} {a : α} (h : l[k]? = some a) :
    a ∈ l := by
  have hk := getElem?_some_lt h
  rw [List.getElem?_eq_getElem hk] at h
  rw [← Option.some_inj.mp h]
  exact List.getElem_mem hk

theorem nodup_lt_length_le {l : List Nat} {n : Nat} (hnd : l.Nodup) (hlt : ∀ x ∈ l, x < n) :
    l.length ≤ n := by
  have h1 : l.toFinset.card = l.length := List.toFinset_card_of_nodup hnd
  have h2 : l.toFinset ⊆ Finset.range n := by
    intro x hx
    rw [List.mem_toFinset] at hx
    rw [Finset.mem_range]
    exact hlt x hx
  have h3 := Finset.card_le_card h2
  rw [h1, Finset.card_range] at h3
  exact h3

theorem mem_take_exists_getElem {α : Type} {l : List α} {k : Nat} {a : α} (h : a ∈ l.take k) :
    ∃ m, m < k ∧ l[m]? = some a := by
  obtain ⟨m, hm, hma⟩ := List.getElem_of_mem h
  have hmk : m < k := by
    have := hm
    rw [List.length_take] at this
    omega
  have hml : m < l.length := by
    have := hm
    rw [List.length_take] at this
    omega
  refine ⟨m, hmk, ?_⟩
  rw [List.getElem?_eq_getElem hml, ← hma, List.getElem_take]

theorem childrenOfIn_append2 (L : List NodeEntry) (i : Nat)
    (a b : List (Nat × String × GltfNode)) :
    childrenOfIn L i (a ++ b) = childrenOfIn L i a ++ childrenOfIn L i b := by
  simp [childrenOfIn, List.filter_append]

/-- Soundness of the resolution order: the node resolved at position `k`
is resolvable within `k + 1` rounds. -/
theorem resolvable_of_res_spec (L : List NodeEntry) (res : List (Nat × String × GltfNode))
    (hspec : ∀ (k i : Nat) (l : String) (nd : GltfNode), res[k]? = some (i, l, nd) →
      ∀ c ∈ declOf L i, pf L c = some i ∧ c ∈ resKeys (res.take k)) :
    ∀ (k i : Nat) (l : String) (nd : GltfNode), res[k]? = some (i, l, nd) →
      resolvableWithin L (k + 1) i = true := by
  intro k
  induction k using Nat.strongRecOn with
  | ind k ih =>
    intro i l nd hk
    have h3 := hspec k i l nd hk
    simp only [resolvableWithin, List.all_eq_true]
    intro c hc
    obtain ⟨hpfc, hmem⟩ := h3 c hc
    rw [Bool.and_eq_true]
    refine ⟨by simp [hpfc], ?_⟩
    rw [resKeys_take] at hmem
    obtain ⟨m, hmk, hm⟩ := mem_take_exists_getElem hmem
    rw [resKeys, List.getElem?_map] at hm
    cases he : res[m]? with
    | none =>
      rw [he] at hm
      exact Option.noConfusion hm
    | some e =>
      rw [he] at hm
      have hce : e.1 = c := Option.some_inj.mp hm
      have hres : resolvableWithin L (m + 1) c = true := by
        have := ih m hmk e.1 e.2.1 e.2.2 (by rw [he])
        rw [hce] at this
        exact this
      exact resolvableWithin_mono L (m + 1) k c (by omega) hres

/-- Completeness against the final state: any index resolvable within any
number of rounds was actually resolved by the loop. -/
theorem res_complete (L : List NodeEntry) (u : List (Option (String × GltfNode × List Nat)))
    (res : List (Nat × String × GltfNode)) (hInv : LoopInv L [] u res) :
    ∀ (k i : Nat), i < L.length → resolvableWithin L k i = true → i ∈ resKeys res := by
  intro k
  induction k with
  | zero =>
    intro i _ h
    simp [resolvableWithin] at h
  | succ k ih =>
    intro i hi h
    by_contra hmem
    cases hu : (u[i]?).join with
    | none => exact hmem ((hInv.partition i hi).mp hu)
    | some e =>
      have hch : e.2.2 ≠ [] := by
        intro hnil
        have hq := hInv.empty_in_q i e.1 e.2.1 (by rw [hu, ← hnil])
        exact List.not_mem_nil _ hq
      obtain ⟨c, hc⟩ := List.exists_mem_of_ne_nil _ hch
      have hcmem := (hInv.entry_ch_mem i e.1 e.2.1 e.2.2 (by rw [hu]) c).mp hc
      obtain ⟨hcdecl, hcnot⟩ := hcmem
      simp only [resolvableWithin, List.all_eq_true] at h
      have hcc := h c hcdecl
      rw [Bool.and_eq_true, beq_iff_eq] at hcc
      obtain ⟨hpfc, hwc⟩ := hcc
      have hcn : c < L.length := (pf_sound L c i hpfc).2.2
      exact hcnot ⟨hpfc, ih c hcn hwc⟩

/-- In the final state every resolved entry carries its input label and its
fully linked node: the input node extended by all its resolved children in
completion order. -/
theorem res_entry_final (L : List NodeEntry) (u : List (Option (String × GltfNode × List Nat)))
    (res : List (Nat × String × GltfNode)) (hInv : LoopInv L [] u res) :
    ∀ (k i : Nat) (l : String) (nd : GltfNode), res[k]? = some (i, l, nd) →
      l = labelOf L i ∧ nd = (nodeOf L i).appendChildren (childrenOfIn L i res) := by
  intro k i l nd hk
  obtain ⟨hl, hnd, hdecl⟩ := hInv.res_spec k i l nd hk
  refine ⟨hl.symm, ?_⟩
  rw [hnd]
  have hsplit : childrenOfIn L i res =
      childrenOfIn L i (res.take k) ++ childrenOfIn L i (res.drop k) := by
    rw [← childrenOfIn_append2, List.take_append_drop]
  have hdropnil : childrenOfIn L i (res.drop k) = [] := by
    have hfil : (res.drop k).filter (fun e => pf L e.1 == some i) = [] := by
      rw [List.filter_eq_nil_iff]
      intro e he hbe
      rw [beq_iff_eq] at hbe
      have hedecl : e.1 ∈ declOf L i := (pf_sound L e.1 i hbe).2.1
      have htake : e.1 ∈ resKeys (res.take k) := (hdecl e.1 hedecl).2
      have hdrop : e.1 ∈ resKeys (res.drop k) := List.mem_map_of_mem _ he
      have hnd2 := hInv.res_nodup
      have hkeys : resKeys res = resKeys (res.take k) ++ resKeys (res.drop k) := by
        rw [resKeys, resKeys, resKeys, ← List.map_append, List.take_append_drop]
      rw [hkeys] at hnd2
      exact (List.nodup_append.mp hnd2).2.2 htake hdrop
    rw [childrenOfIn, hfil]
    rfl
  rw [hsplit, hdropnil, List.append_nil]

/-- The resolved keys of the final state are exactly the input indices
resolvable within `L.length` rounds. -/
theorem resKeys_iff_resolvable (L : List NodeEntry)
    (u : List (Option (String × GltfNode × List Nat)))
    (res : List (Nat × String × GltfNode)) (hInv : LoopInv L [] u res) :
    ∀ i, i ∈ resKeys res ↔ (i < L.length ∧ resolvableWithin L L.length i = true) := by
  intro i
  constructor
  · intro hmem
    obtain ⟨k, l', nd', hk⟩ := resKeys_mem_getElem hmem
    have hi : i < L.length := hInv.res_lt _ (mem_of_getElem?_eq hk)
    have hres := resolvable_of_res_spec L res (fun k i l nd hk => (hInv.res_spec k i l nd hk).2.2)
      k i l' nd' hk
    have hkb : k < res.length := getElem?_some_lt hk
    have hb : res.length ≤ L.length := by
      have h1 : (resKeys res).length = res.length := List.length_map _ _
      have := nodup_lt_length_le hInv.res_nodup (fun x hx => by
        obtain ⟨e, he, hei⟩ := List.mem_map.mp hx
        rw [← hei]
        exact hInv.res_lt e he)
      omega
    exact ⟨hi, resolvableWithin_mono L (k + 1) L.length i (by omega) hres⟩
  · rintro ⟨hi, hres⟩
    exact res_complete L u res hInv L.length i hi hres

/-- The sequence of resolutions in the order the work queue completed them;
the `k`-th element is the `k`-th node to be popped, with its label and its
fully linked node value. -/
def resolutionTrace (L : List NodeEntry) : List (Nat × String × GltfNode) :=
  (runLoop (initParents L).1 (initQueue L) (initUnprocessed L) []).resolved

/-! ### Master characterization of the resolver -/

/-- The final loop state satisfies the invariant with an empty queue. -/
theorem resolutionTrace_inv (L : List NodeEntry) :
    LoopInv L []
      (runLoop (initParents L).1 (initQueue L) (initUnprocessed L) []).unprocessed
      (resolutionTrace L) :=
  (runLoop_final L (initQueue L) (initUnprocessed L) [] (LoopInv_init L)).2

/-- The fully resolved node of input index `i`: its input node value with
its resolved children appended in completion order. -/
def finalNodeOf (L : List NodeEntry) (i : Nat) : GltfNode :=
  (nodeOf L i).appendChildren (childrenOfIn L i (resolutionTrace L))

/-- The input indices that survive resolution, in ascending order. -/
def resolvedIndices (L : List NodeEntry) : List Nat :=
  (List.range L.length).filter (fun i => resolvableWithin L L.length i)

/-- The strict key order on resolved entries. -/
def byKeyLt (a b : Nat × String × GltfNode) : Prop := a.1 < b.1

instance : IsAntisymm (Nat × String × GltfNode) byKeyLt :=
  ⟨fun _ _ h1 h2 => absurd h2 (Nat.lt_asymm h1)⟩

theorem trace_keys_iff (L : List NodeEntry) (i : Nat) :
    i ∈ resKeys (resolutionTrace L) ↔
      (i < L.length ∧ resolvableWithin L L.length i = true) :=
  resKeys_iff_resolvable L _ _ (resolutionTrace_inv L) i

theorem trace_entry (L : List NodeEntry) (k i : Nat) (l : String) (nd : GltfNode)
    (hk : (resolutionTrace L)[k]? = some (i, l, nd)) :
    l = labelOf L i ∧ nd = finalNodeOf L i :=
  res_entry_final L _ _ (resolutionTrace_inv L) k i l nd hk

/-- Master characterization of `resolve_node_hierarchy`: the returned pairs
are exactly the resolvable input indices in ascending order, each carrying
its label and fully linked node. -/
theorem resolve_nodes_eq (L : List NodeEntry) :
    (resolve_node_hierarchy L).nodes =
      (resolvedIndices L).map (fun i => (labelOf L i, finalNodeOf L i)) := by
  have hInv := resolutionTrace_inv L
  have hresnodup : (resolutionTrace L).Nodup := List.Nodup.of_map _ hInv.res_nodup
  have hinj : Function.Injective
      (fun i => ((i, labelOf L i, finalNodeOf L i) : Nat × String × GltfNode)) := by
    intro a b h
    exact congrArg Prod.fst h
  have hfilnodup : (resolvedIndices L).Nodup := (List.nodup_range _).filter _
  have hcanonnodup :
      ((resolvedIndices L).map (fun i => (i, labelOf L i, finalNodeOf L i))).Nodup :=
    List.Nodup.map hinj hfilnodup
  have hmemiff : ∀ e, e ∈ resolutionTrace L ↔
      e ∈ (resolvedIndices L).map (fun i => (i, labelOf L i, finalNodeOf L i)) := by
    intro e
    constructor
    · intro he
      obtain ⟨k, hklt, hke⟩ := List.getElem_of_mem he
      have hk : (resolutionTrace L)[k]? = some (e.1, e.2.1, e.2.2) := by
        rw [List.getElem?_eq_getElem hklt, hke]
      obtain ⟨hl, hnd⟩ := trace_entry L k e.1 e.2.1 e.2.2 hk
      have hkey : e.1 ∈ resKeys (resolutionTrace L) := List.mem_map_of_mem _ he
      have hidx : e.1 ∈ resolvedIndices L := by
        rw [trace_keys_iff] at hkey
        rw [resolvedIndices, List.mem_filter, List.mem_range]
        exact ⟨hkey.1, hkey.2⟩
      have hee : e = (e.1, labelOf L e.1, finalNodeOf L e.1) := by
        rw [← hl, ← hnd]
      rw [hee]
      exact List.mem_map_of_mem _ hidx
    · intro he
      obtain ⟨i, hi, hie⟩ := List.mem_map.mp he
      have hkey : i ∈ resKeys (resolutionTrace L) := by
        rw [trace_keys_iff]
        rw [resolvedIndices, List.mem_filter, List.mem_range] at hi
        exact hi
      obtain ⟨k, l', nd', hk⟩ := resKeys_mem_getElem hkey
      obtain ⟨hl, hnd⟩ := trace_entry L k i l' nd' hk
      have : (i, l', nd') = e := by
        rw [← hie, hl, hnd]
      rw [← this]
      exact mem_of_getElem?_eq hk
  have hperm : (List.insertionSort byKey (resolutionTrace L)).Perm
      ((resolvedIndices L).map (fun i => (i, labelOf L i, finalNodeOf L i))) :=
    (List.perm_insertionSort byKey _).trans
      ((List.perm_ext_iff_of_nodup hresnodup hcanonnodup).mpr hmemiff)
  have hsorted1 : List.Sorted byKeyLt (List.insertionSort byKey (resolutionTrace L)) := by
    have hs := List.sorted_insertionSort byKey (resolutionTrace L)
    have hkeysnodup : (resKeys (List.insertionSort byKey (resolutionTrace L))).Nodup := by
      have hp : (resKeys (List.insertionSort byKey (resolutionTrace L))).Perm
          (resKeys (resolutionTrace L)) := List.Perm.map _ (List.perm_insertionSort byKey _)
      exact hp.nodup_iff.mpr hInv.res_nodup
    have hne : List.Pairwise (fun a b : Nat × String × GltfNode => a.1 ≠ b.1)
        (List.insertionSort byKey (resolutionTrace L)) := by
      rw [← List.pairwise_map]
      exact hkeysnodup
    exact (hs.and hne).imp (fun h => Nat.lt_of_le_of_ne h.1 h.2)
  have hsorted2 : List.Sorted byKeyLt
      ((resolvedIndices L).map (fun i => (i, labelOf L i, finalNodeOf L i))) := by
    rw [List.Sorted, List.pairwise_map]
    have : List.Pairwise (fun a b : Nat => a < b) (resolvedIndices L) :=
      (List.pairwise_lt_range _).filter _
    exact this.imp (fun h => h)
  have heq := List.eq_of_perm_of_sorted hperm hsorted1 hsorted2
  show (List.insertionSort byKey (resolutionTrace L)).map (fun e => (e.2.1, e.2.2)) = _
  rw [heq, List.map_map]
  rfl


/-! ### Forest inputs: acyclicity, in-range and uniquely declared children -/

/-- The concatenation of all declared child-index lists of the input. -/
def allDeclared (L : List NodeEntry) : List Nat :=
  L.foldr (fun e acc => e.2.2 ++ acc) []

/-- Bounded reachability through declared children: `reachWithin L k i j`
holds when `j` can be reached from `i` through at least one and at most `k`
declared-child edges. -/
def reachWithin (L : List NodeEntry) : Nat → Nat → Nat → Bool
  | 0, _, _ => false
  | k + 1, i, j => (declOf L i).any (fun c => c == j || reachWithin L k c j)

/-- Existence of a descending chain of `k` declared-child edges from `i`. -/
def longPath (L : List NodeEntry) : Nat → Nat → Bool
  | 0, _ => true
  | k + 1, i => (declOf L i).any (fun c => longPath L k c)

/-- The input has no declared-child cycle. -/
def Acyclic (L : List NodeEntry) : Prop :=
  ∀ i, i < L.length → reachWithin L L.length i i = false

instance (L : List NodeEntry) : Decidable (Acyclic L) := by
  unfold Acyclic
  infer_instance

theorem declOf_cons_zero (e : NodeEntry) (L : List NodeEntry) : declOf (e :: L) 0 = e.2.2 := by
  simp [declOf]

theorem declOf_cons_succ (e : NodeEntry) (L : List NodeEntry) (i : Nat) :
    declOf (e :: L) (i + 1) = declOf L i := by
  simp [declOf]

theorem allDeclared_cons (e : NodeEntry) (L : List NodeEntry) :
    allDeclared (e :: L) = e.2.2 ++ allDeclared L := rfl

theorem declOf_sublist (L : List NodeEntry) : ∀ i, (declOf L i).Sublist (allDeclared L) := by
  induction L with
  | nil =>
    intro i
    simp [declOf, allDeclared]
  | cons e L' ih =>
    intro i
    cases i with
    | zero =>
      rw [declOf_cons_zero, allDeclared_cons]
      exact List.sublist_append_left _ _
    | succ i' =>
      rw [declOf_cons_succ, allDeclared_cons]
      exact (ih i').trans (List.sublist_append_right _ _)

theorem mem_allDeclared_of_mem_declOf {L : List NodeEntry} {i c : Nat}
    (h : c ∈ declOf L i) : c ∈ allDeclared L :=
  (declOf_sublist L i).mem h

theorem unique_declarer_of_nodup :
    ∀ (L : List NodeEntry), (allDeclared L).Nodup →
      ∀ i j c, c ∈ declOf L i → c ∈ declOf L j → i = j := by
  intro L
  induction L with
  | nil =>
    intro _ i j c hci
    simp [declOf] at hci
  | cons e L' ih =>
    intro hnd i j c hci hcj
    rw [allDeclared_cons] at hnd
    obtain ⟨hnd1, hnd2, hdisj⟩ := List.nodup_append.mp hnd
    cases i with
    | zero =>
      cases j with
      | zero => rfl
      | succ j' =>
        rw [declOf_cons_zero] at hci
        rw [declOf_cons_succ] at hcj
        exact absurd (hdisj hci (mem_allDeclared_of_mem_declOf hcj)) (fun h => h)
    | succ i' =>
      cases j with
      | zero =>
        rw [declOf_cons_zero] at hcj
        rw [declOf_cons_succ] at hci
        exact absurd (hdisj hcj (mem_allDeclared_of_mem_declOf hci)) (fun h => h)
      | succ j' =>
        rw [declOf_cons_succ] at hci hcj
        rw [ih hnd2 i' j' c hci hcj]

theorem pf_forest (L : List NodeEntry) (H1 : (allDeclared L).Nodup)
    (H2 : ∀ c ∈ allDeclared L, c < L.length) :
    ∀ i c, i < L.length → c ∈ declOf L i → pf L c = some i := by
  intro i c hi hc
  refine pf_eq_of_unique_declarer L i c hi hc
    (H2 c (mem_allDeclared_of_mem_declOf hc)) ?_
  intro j _ hjne hcj
  exact hjne (unique_declarer_of_nodup L H1 j i c hcj hc)

theorem resolvable_of_no_longPath (L : List NodeEntry)
    (H1 : (allDeclared L).Nodup) (H2 : ∀ c ∈ allDeclared L, c < L.length) :
    ∀ k i, i < L.length → longPath L k i = false → resolvableWithin L k i = true := by
  intro k
  induction k with
  | zero =>
    intro i _ h
    simp [longPath] at h
  | succ k ih =>
    intro i hi h
    rw [longPath] at h
    rw [List.any_eq_false] at h
    simp only [resolvableWithin, List.all_eq_true]
    intro c hc
    have hcn : c < L.length := H2 c (mem_allDeclared_of_mem_declOf hc)
    rw [Bool.and_eq_true]
    constructor
    · rw [beq_iff_eq]
      exact pf_forest L H1 H2 i c hi hc
    · refine ih c hcn ?_
      have := h c hc
      rw [Bool.not_eq_true] at this
      exact this

/-- A declared-child chain, recorded as the list of vertices after the
start vertex. -/
def IsPath (L : List NodeEntry) : Nat → List Nat → Prop
  | _, [] => True
  | i, c :: rest => c ∈ declOf L i ∧ IsPath L c rest

/-- The last vertex of a chain starting at `i`. -/
def lastV (i : Nat) (xs : List Nat) : Nat := xs.getLastD i

theorem lastV_append_singleton (i : Nat) (xs : List Nat) (a : Nat) :
    lastV i (xs ++ [a]) = a := by
  rw [lastV, List.getLastD_concat]

theorem longPath_exists_path (L : List NodeEntry) :
    ∀ k i, longPath L k i = true → ∃ l, IsPath L i l ∧ l.length = k := by
  intro k
  induction k with
  | zero =>
    intro i _
    exact ⟨[], trivial, rfl⟩
  | succ k ih =>
    intro i h
    rw [longPath, List.any_eq_true] at h
    obtain ⟨c, hc, hcp⟩ := h
    obtain ⟨l, hl, hlen⟩ := ih c hcp
    exact ⟨c :: l, ⟨hc, hl⟩, by simp [hlen]⟩

theorem path_mem_lt (L : List NodeEntry) (H2 : ∀ c ∈ allDeclared L, c < L.length) :
    ∀ (l : List Nat) (i : Nat), IsPath L i l → ∀ x ∈ l, x < L.length := by
  intro l
  induction l with
  | nil =>
    intro i _ x hx
    simp at hx
  | cons c rest ih =>
    intro i hp x hx
    obtain ⟨hc, hrest⟩ := hp
    rcases List.mem_cons.mp hx with rfl | hx
    · exact H2 x (mem_allDeclared_of_mem_declOf hc)
    · exact ih c hrest x hx

theorem path_append (L : List NodeEntry) :
    ∀ (xs ys : List Nat) (i : Nat),
      IsPath L i (xs ++ ys) ↔ IsPath L i xs ∧ IsPath L (lastV i xs) ys := by
  intro xs
  induction xs with
  | nil =>
    intro ys i
    simp [IsPath, lastV]
  | cons c xs ih =>
    intro ys i
    simp only [List.cons_append, IsPath, List.append_eq, ih, lastV, List.getLastD_cons]
    rw [and_assoc]

theorem path_to_reach (L : List NodeEntry) :
    ∀ (l : List Nat) (i j : Nat), IsPath L i l → l.getLast? = some j →
      ∀ k, l.length ≤ k → reachWithin L k i j = true := by
  intro l
  induction l with
  | nil =>
    intro i j _ hlast
    exact Option.noConfusion hlast
  | cons c rest ih =>
    intro i j hp hlast k hk
    obtain ⟨hc, hrest⟩ := hp
    obtain ⟨k', rfl⟩ : ∃ m, k = m + 1 := ⟨k - 1, by simp at hk; omega⟩
    rw [reachWithin, List.any_eq_true]
    refine ⟨c, hc, ?_⟩
    cases rest with
    | nil =>
      have hj : c = j := by simpa using hlast
      rw [hj]
      simp
    | cons d rest' =>
      have hlast' : (d :: rest').getLast? = some j := by
        rw [← hlast]
        rfl
      have hrec := ih c j hrest hlast' k' (by simp at hk ⊢; omega)
      rw [hrec]
      simp

theorem sublist_pair_decomp {a : Nat} :
    ∀ {L : List Nat}, [a, a].Sublist L → ∃ s1 s2 s3, L = s1 ++ a :: s2 ++ a :: s3 := by
  intro L h
  induction L with
  | nil => cases h
  | cons b L' ih =>
    cases h with
    | cons x h' =>
      obtain ⟨s1, s2, s3, hd⟩ := ih h'
      exact ⟨b :: s1, s2, s3, by rw [hd]; rfl⟩
    | cons₂ x h' =>
      have hmem : a ∈ L' := List.singleton_sublist.mp h'
      obtain ⟨t1, t2, ht⟩ := List.append_of_mem hmem
      exact ⟨[], t1, t2, by rw [ht]; rfl⟩

theorem no_longPath_of_acyclic (L : List NodeEntry)
    (H2 : ∀ c ∈ allDeclared L, c < L.length) (H3 : Acyclic L) :
    ∀ i, i < L.length → longPath L L.length i = false := by
  intro i hi
  by_contra hlp
  rw [Bool.not_eq_false] at hlp
  obtain ⟨l, hpath, hlen⟩ := longPath_exists_path L L.length i hlp
  have hvlt : ∀ x ∈ i :: l, x < L.length := by
    intro x hx
    rcases List.mem_cons.mp hx with rfl | hx
    · exact hi
    · exact path_mem_lt L H2 l i hpath x hx
  have hnotnodup : ¬ (i :: l).Nodup := by
    intro hnd
    have hle := nodup_lt_length_le hnd hvlt
    rw [List.length_cons, hlen] at hle
    omega
  obtain ⟨a, hsub⟩ : ∃ a, [a, a].Sublist (i :: l) := by
    by_contra hno
    push_neg at hno
    exact hnotnodup (List.nodup_iff_sublist.mpr hno)
  obtain ⟨s1, s2, s3, hdecomp⟩ := sublist_pair_decomp hsub
  have haln : a < L.length := by
    refine hvlt a ?_
    rw [hdecomp]
    simp
  cases s1 with
  | nil =>
    have hia : i = a := by
      have hh := congrArg (fun x => x.head?) hdecomp
      simpa using hh
    have hl : l = s2 ++ (a :: s3) := by
      have hh := congrArg List.tail hdecomp
      simpa using hh
    have hl2 : l = (s2 ++ [a]) ++ s3 := by
      rw [hl]
      simp
    rw [hl2] at hpath
    have hp2 : IsPath L i (s2 ++ [a]) := ((path_append L _ _ _).mp hpath).1
    have hlast : (s2 ++ [a]).getLast? = some a := List.getLast?_concat _
    have hlenle : (s2 ++ [a]).length ≤ L.length := by
      have : l.length = L.length := hlen
      rw [hl2] at this
      simp at this ⊢
      omega
    have hreach := path_to_reach L (s2 ++ [a]) i a hp2 hlast L.length hlenle
    rw [hia] at hreach
    rw [H3 a haln] at hreach
    exact Bool.noConfusion hreach
  | cons b s1' =>
    have hl : l = s1' ++ (a :: (s2 ++ (a :: s3))) := by
      have hh := congrArg List.tail hdecomp
      simpa using hh
    have hl2 : l = (s1' ++ [a]) ++ ((s2 ++ [a]) ++ s3) := by
      rw [hl]
      simp
    rw [hl2] at hpath
    have hp1 := (path_append L _ _ _).mp hpath
    have hp2 : IsPath L a ((s2 ++ [a]) ++ s3) := by
      have := hp1.2
      rw [lastV_append_singleton] at this
      exact this
    have hp3 : IsPath L a (s2 ++ [a]) := ((path_append L _ _ _).mp hp2).1
    have hlast : (s2 ++ [a]).getLast? = some a := List.getLast?_concat _
    have hlenle : (s2 ++ [a]).length ≤ L.length := by
      have hleq : l.length = L.length := hlen
      rw [hl2] at hleq
      simp at hleq ⊢
      omega
    have hreach := path_to_reach L (s2 ++ [a]) a a hp3 hlast L.length hlenle
    rw [H3 a haln] at hreach
    exact Bool.noConfusion hreach


theorem all_resolvable_of_forest (L : List NodeEntry)
    (H1 : (allDeclared L).Nodup) (H2 : ∀ c ∈ allDeclared L, c < L.length) (H3 : Acyclic L) :
    ∀ i, i < L.length → resolvableWithin L L.length i = true := by
  intro i hi
  exact resolvable_of_no_longPath L H1 H2 L.length i hi (no_longPath_of_acyclic L H2 H3 i hi)

theorem resolvedIndices_forest (L : List NodeEntry)
    (H1 : (allDeclared L).Nodup) (H2 : ∀ c ∈ allDeclared L, c < L.length) (H3 : Acyclic L) :
    resolvedIndices L = List.range L.length := by
  rw [resolvedIndices]
  apply List.filter_eq_self.mpr
  intro i hi
  rw [List.mem_range] at hi
  exact all_resolvable_of_forest L H1 H2 H3 i hi

theorem range_map_labelOf (L : List NodeEntry) :
    (List.range L.length).map (fun i => labelOf L i) = L.map (fun e => e.1) := by
  apply List.ext_getElem?
  intro k
  rw [List.getElem?_map, List.getElem?_map]
  by_cases hk : k < L.length
  · rw [List.getElem?_range hk, List.getElem?_eq_getElem hk]
    simp [labelOf, List.getElem?_eq_getElem hk]
  · rw [List.getElem?_eq_none (by simpa using Nat.le_of_not_lt hk),
      List.getElem?_eq_none (Nat.le_of_not_lt hk)]
    rfl

theorem children_appendChildren (nd : GltfNode) (l : List GltfNode) :
    (nd.appendChildren l).children = nd.children ++ l := by
  cases nd
  rfl

theorem childrenOfIn_trace_length_forest (L : List NodeEntry)
    (H1 : (allDeclared L).Nodup) (H2 : ∀ c ∈ allDeclared L, c < L.length) (H3 : Acyclic L)
    (i : Nat) (hi : i < L.length) :
    (childrenOfIn L i (resolutionTrace L)).length = (declOf L i).length := by
  have hInv := resolutionTrace_inv L
  have hkeysiff : ∀ x, x ∈ resKeys (resolutionTrace L) ↔ x ∈ List.range L.length := by
    intro x
    rw [trace_keys_iff, List.mem_range]
    constructor
    · exact fun h => h.1
    · intro h
      exact ⟨h, all_resolvable_of_forest L H1 H2 H3 x h⟩
  have hperm : (resKeys (resolutionTrace L)).Perm (List.range L.length) :=
    (List.perm_ext_iff_of_nodup hInv.res_nodup (List.nodup_range _)).mpr hkeysiff
  rw [childrenOfIn, List.length_map, ← List.countP_eq_length_filter]
  have hmapct : (resolutionTrace L).countP (fun e => pf L e.1 == some i) =
      (resKeys (resolutionTrace L)).countP (fun c => pf L c == some i) := by
    rw [resKeys, List.countP_map]
    rfl
  rw [hmapct, hperm.countP_eq, List.countP_eq_length_filter]
  have hdnodup : (declOf L i).Nodup := (declOf_sublist L i).nodup H1
  have hfnodup : ((List.range L.length).filter (fun c => pf L c == some i)).Nodup :=
    (List.nodup_range _).filter _
  have hmemiff : ∀ c, c ∈ (List.range L.length).filter (fun c => pf L c == some i) ↔
      c ∈ declOf L i := by
    intro c
    rw [List.mem_filter, List.mem_range, beq_iff_eq]
    constructor
    · rintro ⟨hcl, hpfc⟩
      exact (pf_sound L c i hpfc).2.1
    · intro hc
      exact ⟨H2 c (mem_allDeclared_of_mem_declOf hc), pf_forest L H1 H2 i c hi hc⟩
  exact ((List.perm_ext_iff_of_nodup hfnodup hdnodup).mpr hmemiff).length_eq


/-! ### A fuel-indexed evaluator for concrete runs -/


/-- A fuel-indexed, structurally recursive copy of `runLoop`, used to
evaluate the loop on concrete inputs (the well-founded `runLoop` does not
reduce definitionally). -/
def runLoopF (parents : List (Option Nat)) :
    Nat → List Nat → List (Option (String × GltfNode × List Nat)) →
    List (Nat × String × GltfNode) → RState
  | 0, q, u, res => ⟨q, u, res⟩
  | _ + 1, [], u, res => ⟨[], u, res⟩
  | fuel + 1, index :: rest, u, res =>
    match (u[index]?).join with
    | none => runLoopF parents fuel rest u res
    | some (label, node, _ch) =>
      let u1 := u.set index none
      let res1 := res ++ [(index, label, node)]
      match parentOf parents index with
      | none => runLoopF parents fuel rest u1 res1
      | some p =>
        match (u1[p]?).join with
        | none => runLoopF parents fuel rest u1 res1
        | some (plabel, pnode, pchildren) =>
          let pch := pchildren.erase index
          let u2 := u1.set p (some (plabel, pnode.pushChild node, pch))
          let q2 := if pch.isEmpty then rest ++ [p] else rest
          runLoopF parents fuel q2 u2 res1

theorem runLoopF_skip (parents : List (Option Nat)) (fuel index : Nat) (rest : List Nat)
    (u : List (Option (String × GltfNode × List Nat))) (res : List (Nat × String × GltfNode))
    (h1 : (u[index]?).join = none) :
    runLoopF parents (fuel + 1) (index :: rest) u res = runLoopF parents fuel rest u res := by
  rw [runLoopF, h1]

theorem runLoopF_resolve_noparent (parents : List (Option Nat)) (fuel index : Nat)
    (rest : List Nat) (u : List (Option (String × GltfNode × List Nat)))
    (res : List (Nat × String × GltfNode))
    (label : String) (node : GltfNode) (ch : List Nat)
    (h1 : (u[index]?).join = some (label, node, ch))
    (hp : parentOf parents index = none) :
    runLoopF parents (fuel + 1) (index :: rest) u res =
      runLoopF parents fuel rest (u.set index none) (res ++ [(index, label, node)]) := by
  rw [runLoopF, h1, hp]

theorem runLoopF_resolve_badparent (parents : List (Option Nat)) (fuel index : Nat)
    (rest : List Nat) (u : List (Option (String × GltfNode × List Nat)))
    (res : List (Nat × String × GltfNode))
    (label : String) (node : GltfNode) (ch : List Nat) (p : Nat)
    (h1 : (u[index]?).join = some (label, node, ch))
    (hp : parentOf parents index = some p)
    (h2 : ((u.set index none)[p]?).join = none) :
    runLoopF parents (fuel + 1) (index :: rest) u res =
      runLoopF parents fuel rest (u.set index none) (res ++ [(index, label, node)]) := by
  rw [runLoopF, h1, hp]
  dsimp only
  rw [h2]

theorem runLoopF_resolve_parent (parents : List (Option Nat)) (fuel index : Nat)
    (rest : List Nat) (u : List (Option (String × GltfNode × List Nat)))
    (res : List (Nat × String × GltfNode))
    (label : String) (node : GltfNode) (ch : List Nat) (p : Nat) (plabel : String)
    (pnode : GltfNode) (pchildren : List Nat)
    (h1 : (u[index]?).join = some (label, node, ch))
    (hp : parentOf parents index = some p)
    (h2 : ((u.set index none)[p]?).join = some (plabel, pnode, pchildren)) :
    runLoopF parents (fuel + 1) (index :: rest) u res =
      runLoopF parents fuel
        (if (pchildren.erase index).isEmpty then rest ++ [p] else rest)
        ((u.set index none).set p (some (plabel, pnode.pushChild node, pchildren.erase index)))
        (res ++ [(index, label, node)]) := by
  rw [runLoopF, h1, hp]
  dsimp only
  rw [h2]

/-- On sufficient fuel the evaluator agrees with the loop. -/
theorem runLoop_eq_runLoopF (parents : List (Option Nat)) :
    ∀ (fuel : Nat) (q : List Nat) (u : List (Option (String × GltfNode × List Nat)))
      (res : List (Nat × String × GltfNode)), pendingCount u + q.length ≤ fuel →
      runLoop parents q u res = runLoopF parents fuel q u res := by
  intro fuel
  induction fuel with
  | zero =>
    intro q u res hle
    have hq : q = [] := by
      cases q with
      | nil => rfl
      | cons a q => simp at hle
    subst hq
    rw [runLoop_nil, runLoopF]
  | succ fuel ih =>
    intro q u res hle
    cases q with
    | nil => rw [runLoop_nil, runLoopF]
    | cons index rest =>
      rw [List.length_cons] at hle
      cases h1 : (u[index]?).join with
      | none =>
        rw [runLoop_skip _ _ _ _ _ h1, runLoopF_skip _ _ _ _ _ _ h1]
        exact ih rest u res (by omega)
      | some e =>
        obtain ⟨label, node, ch⟩ := e
        have hdec := pendingCount_set_none u index _ (join_eq_some.mp h1)
        cases hp : parentOf parents index with
        | none =>
          rw [runLoop_resolve_noparent _ _ _ _ _ _ _ _ h1 hp,
            runLoopF_resolve_noparent _ _ _ _ _ _ _ _ _ h1 hp]
          exact ih rest _ _ (by omega)
        | some p =>
          cases h2 : ((u.set index none)[p]?).join with
          | none =>
            rw [runLoop_resolve_badparent _ _ _ _ _ _ _ _ _ h1 hp h2,
              runLoopF_resolve_badparent _ _ _ _ _ _ _ _ _ _ h1 hp h2]
            exact ih rest _ _ (by omega)
          | some pe =>
            obtain ⟨plabel, pnode, pchildren⟩ := pe
            rw [runLoop_resolve_parent _ _ _ _ _ _ _ _ _ _ _ _ h1 hp h2,
              runLoopF_resolve_parent _ _ _ _ _ _ _ _ _ _ _ _ _ h1 hp h2]
            have hset := pendingCount_set_some (u.set index none) p _
              (plabel, pnode.pushChild node, pchildren.erase index) (join_eq_some.mp h2)
            apply ih
            rw [hset]
            by_cases hemp : (pchildren.erase index).isEmpty
            · rw [if_pos hemp, List.length_append]
              simp only [List.length_cons, List.length_nil]
              omega
            · rw [if_neg hemp]
              omega

theorem pendingCount_init (L : List NodeEntry) : pendingCount (initUnprocessed L) = L.length := by
  unfold pendingCount initUnprocessed
  rw [List.countP_map]
  simp [Function.comp]

theorem initQueue_length_le (L : List NodeEntry) : (initQueue L).length ≤ L.length := by
  unfold initQueue
  calc ((List.range L.length).filter _).length ≤ (List.range L.length).length :=
        List.length_filter_le _ _
    _ = L.length := List.length_range _

/-- The initial loop run, evaluated: `2 * L.length` fuel always suffices. -/
theorem runLoop_init_eval (L : List NodeEntry) :
    runLoop (initParents L).1 (initQueue L) (initUnprocessed L) [] =
      runLoopF (initParents L).1 (2 * L.length) (initQueue L) (initUnprocessed L) [] := by
  apply runLoop_eq_runLoopF
  rw [pendingCount_init]
  have := initQueue_length_le L
  omega

/-- `resolve_node_hierarchy`, written with the evaluator: equal to the
original and reducible on concrete inputs. -/
def resolve_node_hierarchyF (L : List NodeEntry) : ResolveResult :=
  let ip := initParents L
  let s := runLoopF ip.1 (2 * L.length) (initQueue L) (initUnprocessed L) []
  { nodes := (List.insertionSort byKey s.resolved).map (fun e => (e.2.1, e.2.2))
    childWarnings := if ip.2 then 1 else 0
    treeWarning := decide (pendingCount s.unprocessed ≠ 0) }

theorem resolve_node_hierarchy_eval (L : List NodeEntry) :
    resolve_node_hierarchy L = resolve_node_hierarchyF L := by
  unfold resolve_node_hierarchy resolve_node_hierarchyF
  dsimp only
  rw [runLoop_init_eval]

theorem resolutionTrace_eval (L : List NodeEntry) :
    resolutionTrace L =
      (runLoopF (initParents L).1 (2 * L.length) (initQueue L) (initUnprocessed L) []).resolved := by
  unfold resolutionTrace
  rw [runLoop_init_eval]




/-! ### The loader's error type (loader.rs:55-76)

Constructors carried by external error payloads (`gltf::Error`, base64,
image, asset-io, tangent errors) keep only the constructor; the payloads
the loader itself builds (`mode`, the mime-type string, the animation
index) are kept. -/

/-- `gltf::mesh::Mode`: the seven glTF primitive modes. -/
inductive Mode
  | Points
  | Lines
  | LineLoop
  | LineStrip
  | Triangles
  | TriangleStrip
  | TriangleFan
deriving DecidableEq

/-- `GltfError` (loader.rs:55-76). -/
inductive GltfError
  | UnsupportedPrimitive (mode : Mode)
  | Gltf
  | MissingBlob
  | Base64Decode
  | BufferFormatUnsupported
  | InvalidImageMimeType (mime : String)
  | ImageError
  | AssetIoError
  | MissingAnimationSampler (index : Nat)
  | GenerateTangentsError
deriving DecidableEq

/-! ### Vertex-attribute decoding (loader.rs:98-218)

`gltf::accessor::DataType` and `Dimensions`, the accessor state the
dispatch reads (`data_type()`, `dimensions()`, `normalized()`), plus the
sparseness flag the claim speaks about; element payloads are dropped, so a
`VertexAttributeIter` value records only which constructor was chosen.
The external `gltf::accessor::Iter::new` (whose success depends on the
accessor's views, strides and sparseness) is a `Bool`-valued parameter
`ext`. -/

inductive DataType
  | I8
  | U8
  | I16
  | U16
  | U32
  | F32
deriving DecidableEq

inductive Dimensions
  | Scalar
  | Vec2
  | Vec3
  | Vec4
  | Mat2
  | Mat3
  | Mat4
deriving DecidableEq

structure Accessor where
  data_type : DataType
  dimensions : Dimensions
  normalized : Bool
  sparse : Bool
deriving DecidableEq

/-- `AccessFailed` (loader.rs:118-121). -/
inductive AccessFailed
  | MalformedData
  | UnsupportedFormat
deriving DecidableEq

/-- `VertexAttributeIter` (loader.rs:161-182): the chosen format, with the
`Normalization` flag where the Rust constructor carries one. -/
inductive VertexAttributeIter
  | F32
  | U32
  | F32x2
  | U32x2
  | F32x3
  | U32x3
  | F32x4
  | U32x4
  | S16x2 (n : Bool)
  | U16x2 (n : Bool)
  | S16x4 (n : Bool)
  | U16x4 (n : Bool)
  | S8x2 (n : Bool)
  | U8x2 (n : Bool)
  | S8x4 (n : Bool)
  | U8x4 (n : Bool)
  | U16x3 (n : Bool)
  | U8x3 (n : Bool)
deriving DecidableEq

/-- `BufferAccessor` (loader.rs:124-128); the buffer data is folded into
the external parameter `ext`. -/
structure BufferAccessor where
  accessor : Accessor
  normalization : Bool

/-- `BufferAccessor::iter` (loader.rs:132-137): the external iterator
constructor either succeeds or the access fails as `MalformedData`. -/
def BufferAccessor.iter (ext : Accessor → Bool) (acc : BufferAccessor) :
    Except AccessFailed Unit :=
  if ext acc.accessor then .ok () else .error .MalformedData

/-- `BufferAccessor::with_no_norm` (loader.rs:140-148). -/
def with_no_norm (ext : Accessor → Bool) (acc : BufferAccessor)
    (ctor : VertexAttributeIter) : Except AccessFailed VertexAttributeIter :=
  if acc.normalization then .error .UnsupportedFormat
  else (acc.iter ext).map (fun _ => ctor)

/-- `BufferAccessor::with_norm` (loader.rs:151-157). -/
def with_norm (ext : Accessor → Bool) (acc : BufferAccessor)
    (ctor : Bool → VertexAttributeIter) : Except AccessFailed VertexAttributeIter :=
  (acc.iter ext).map (fun _ => ctor acc.normalization)

/-- `VertexAttributeIter::from_accessor` (loader.rs:186-218). -/
def from_accessor (ext : Accessor → Bool) (accessor : Accessor) :
    Except AccessFailed VertexAttributeIter :=
  let normalization := accessor.normalized
  let acc : BufferAccessor := ⟨accessor, normalization⟩
  match accessor.data_type, accessor.dimensions with
  | .F32, .Scalar => with_no_norm ext acc .F32
  | .U32, .Scalar => with_no_norm ext acc .U32
  | .F32, .Vec2 => with_no_norm ext acc .F32x2
  | .U32, .Vec2 => with_no_norm ext acc .U32x2
  | .F32, .Vec3 => with_no_norm ext acc .F32x3
  | .U32, .Vec3 => with_no_norm ext acc .U32x3
  | .F32, .Vec4 => with_no_norm ext acc .F32x4
  | .U32, .Vec4 => with_no_norm ext acc .U32x4
  | .I16, .Vec2 => with_norm ext acc .S16x2
  | .U16, .Vec2 => with_norm ext acc .U16x2
  | .I16, .Vec4 => with_norm ext acc .S16x4
  | .U16, .Vec4 => with_norm ext acc .U16x4
  | .I8, .Vec2 => with_norm ext acc .S8x2
  | .U8, .Vec2 => with_norm ext acc .U8x2
  | .I8, .Vec4 => with_norm ext acc .S8x4
  | .U8, .Vec4 => with_norm ext acc .U8x4
  | .U16, .Vec3 => with_norm ext acc .U16x3
  | .U8, .Vec3 => with_norm ext acc .U8x3
  | _, _ => .error .UnsupportedFormat

/-- The formats on which `from_accessor` reports `UnsupportedFormat`, read
off its match: a pair with no arm, or a native-format arm (`with_no_norm`)
with normalization requested. Sparseness does not appear. -/
def unsupportedVertexFormat (dt : DataType) (dim : Dimensions) (normalized : Bool) : Bool :=
  match dt, dim with
  | .F32, .Scalar => normalized
  | .U32, .Scalar => normalized
  | .F32, .Vec2 => normalized
  | .U32, .Vec2 => normalized
  | .F32, .Vec3 => normalized
  | .U32, .Vec3 => normalized
  | .F32, .Vec4 => normalized
  | .U32, .Vec4 => normalized
  | .I16, .Vec2 => false
  | .U16, .Vec2 => false
  | .I16, .Vec4 => false
  | .U16, .Vec4 => false
  | .I8, .Vec2 => false
  | .U8, .Vec2 => false
  | .I8, .Vec4 => false
  | .U8, .Vec4 => false
  | .U16, .Vec3 => false
  | .U8, .Vec3 => false
  | _, _ => true

/-! ### Primitive topology (loader.rs:1256-1265, 459-461) -/

/-- `wgpu::PrimitiveTopology` as the mesh constructor receives it. -/
inductive PrimitiveTopology
  | PointList
  | LineList
  | LineStrip
  | TriangleList
  | TriangleStrip
deriving DecidableEq

/-- `get_primitive_topology` (loader.rs:1256-1265). -/
def get_primitive_topology : Mode → Except GltfError PrimitiveTopology
  | .Points => .ok .PointList
  | .Lines => .ok .LineList
  | .LineStrip => .ok .LineStrip
  | .Triangles => .ok .TriangleList
  | .TriangleStrip => .ok .TriangleStrip
  | mode => .error (.UnsupportedPrimitive mode)

/-- The mesh loop's use of the mapping (loader.rs:457-461): each primitive's
mode passes through `get_primitive_topology(...)?`, so the first unsupported
mode aborts the whole load. -/
def primitiveTopologies : List Mode → Except GltfError (List PrimitiveTopology)
  | [] => .ok []
  | m :: rest =>
    match get_primitive_topology m with
    | .error e => .error e
    | .ok t => (primitiveTopologies rest).map (fun l => t :: l)

/-- The per-attribute arm of the mesh loop (loader.rs:504-526): a decoded
attribute is inserted, a failed one only warns; the pair counts the
inserted values and the warnings. -/
def readAttributes : List (Except AccessFailed VertexAttributeIter) →
    List VertexAttributeIter × Nat
  | [] => ([], 0)
  | r :: rest =>
    let t := readAttributes rest
    match r with
    | .ok v => (v :: t.1, t.2)
    | .error _ => (t.1, t.2 + 1)

/-! ### The named-node map (loader.rs:633-644)

`set_labeled_asset` hands back a handle per label, so a handle is
represented by its node's label string. `nodes` is the compacted vector of
handles returned by `resolve_node_hierarchy`; the intermediate name map is
a list of `(name, original index)` pairs. -/

/-- The `named_nodes` filter-map (loader.rs:637-644): each name's original
node index is looked up in the compacted `nodes` vector. -/
def named_nodes (nodes : List String) (named : List (String × Nat)) :
    List (String × String) :=
  named.filterMap (fun p => (nodes[p.2]?).map (fun h => (p.1, h)))

/-! ### The texture phase (loader.rs:650-692)

A texture decode outcome is an `Except GltfError Nat` (the texture id on
success); the external decoding itself is outside the embedding, so the
phase takes the list of outcomes. -/

/-- The serial path (loader.rs:651-661): each outcome passes through `?`,
so the first failure aborts with that texture's error. -/
def texturesSerial : List (Except GltfError Nat) → Except GltfError (List Nat)
  | [] => .ok []
  | .error e :: _ => .error e
  | .ok a :: rest => (texturesSerial rest).map (fun l => a :: l)

/-- The concurrent path (loader.rs:663-691): failed outcomes are warned
about and filtered out; the pair is the published textures and the warning
count. -/
def texturesConcurrent (rs : List (Except GltfError Nat)) : List Nat × Nat :=
  (rs.filterMap (fun r => r.toOption), rs.countP (fun r => !r.isOk))

/-- The whole texture phase with its gate (loader.rs:650): the serial path
is taken when there is exactly one texture or the target is wasm. -/
def texturePhase (wasm : Bool) (rs : List (Except GltfError Nat)) :
    Except GltfError (List Nat × Nat) :=
  if rs.length == 1 || wasm then (texturesSerial rs).map (fun l => (l, 0))
  else .ok (texturesConcurrent rs)

/-! ### The skin phase (loader.rs:694-709)

Per skin, `reader.read_inverse_bind_matrices()` either yields the matrix
list or `None`; the loader calls `.unwrap()` on it (loader.rs:700), so the
`None` case is a panic, not a `GltfError`. The phase result is therefore an
`Option`: `none` models the panic aborting the load. A matrix is kept
abstract as a `Nat` tag. -/

/-- The skin loop (loader.rs:694-709): collect every skin's inverse-bind
matrices, panicking (`none`) on the first absent accessor. -/
def skinPhase : List (Option (List Nat)) → Option (List (List Nat))
  | [] => some []
  | ibm :: rest => ibm.bind (fun ms => (skinPhase rest).map (fun l => ms :: l))

/-! ### The animation phase (loader.rs:377-453)

Per channel the embedding records what the external reader yields: the
sampler interpolation, `read_inputs()` (`None`, a standard iterator with
its timestamps, or a sparse iterator), `read_outputs()` (`None` or one of
the four output kinds, payloads as `Nat` tags) and the `paths` lookup of
the target node. Curve payloads follow loader.rs:425-435. -/

inductive Interpolation
  | Linear
  | Step
  | CubicSpline
deriving DecidableEq

inductive AnimInputs
  | Standard (times : List Nat)
  | Sparse
deriving DecidableEq

inductive AnimOutputs
  | Translations (v : List Nat)
  | Rotations (v : List Nat)
  | Scales (v : List Nat)
  | MorphTargetWeights (v : List Nat)
deriving DecidableEq

structure Channel where
  interpolation : Interpolation
  inputs : Option AnimInputs
  outputs : Option AnimOutputs
  path : Option (Nat × List String)
deriving DecidableEq

structure Curve where
  path : List String
  timestamps : List Nat
  keyframes : AnimOutputs
deriving DecidableEq

/-- One channel of animation `aidx` (loader.rs:379-441): `ok none` is a
`continue` (sparse input, morph-target outputs, or an unnamed node path),
`error` is the fatal return at loader.rs:399 or 422. -/
def runChannel (aidx : Nat) (c : Channel) : Except GltfError (Option Curve) :=
  match c.inputs with
  | none => .error (.MissingAnimationSampler aidx)
  | some .Sparse => .ok none
  | some (.Standard times) =>
    match c.outputs with
    | none => .error (.MissingAnimationSampler aidx)
    | some (.MorphTargetWeights _) => .ok none
    | some out =>
      match c.path with
      | some (_, p) => .ok (some ⟨p, times, out⟩)
      | none => .ok none

/-- The channel loop of one animation, first error fatal. -/
def runChannels (aidx : Nat) : List Channel → Except GltfError (List Curve)
  | [] => .ok []
  | c :: rest =>
    match runChannel aidx c with
    | .error e => .error e
    | .ok none => runChannels aidx rest
    | .ok (some cv) => (runChannels aidx rest).map (fun l => cv :: l)

/-- The animation loop (loader.rs:377-451): after an animation's channels
all pass, its clip is published under `Animation{index}` (loader.rs:443-446);
a channel error propagates out of `load_gltf`, publishing nothing further. -/
def processAnimations : List (Nat × List Channel) → Except GltfError (List String)
  | [] => .ok []
  | a :: rest =>
    match runChannels a.1 a.2 with
    | .error e => .error e
    | .ok _ => (processAnimations rest).map (fun l => ("Animation" ++ toString a.1) :: l)

/-- The channels on which `runChannel` is fatal, read off its match: a
missing sampler input, or a standard input with a missing sampler output
(a sparse input `continue`s before the output is read). -/
def channelFatal (c : Channel) : Bool :=
  match c.inputs with
  | none => true
  | some .Sparse => false
  | some (.Standard _) => c.outputs.isNone




/-! ### Support lemmas for the per-phase claims -/

theorem texturesSerial_first_error (suf : List (Except GltfError Nat)) (e : GltfError) :
    ∀ pre : List (Except GltfError Nat), (∀ r ∈ pre, r.isOk = true) →
      texturesSerial (pre ++ .error e :: suf) = .error e := by
  intro pre
  induction pre with
  | nil =>
    intro _
    rw [List.nil_append, texturesSerial]
  | cons r pre ih =>
    intro h
    cases r with
    | error e' =>
      have := h _ (List.mem_cons_self _ _)
      simp [Except.isOk, Except.toBool] at this
    | ok a =>
      rw [List.cons_append, texturesSerial, ih (fun r hr => h r (List.mem_cons_of_mem _ hr))]
      rfl

theorem primitiveTopologies_first_error (suf : List Mode) (m : Mode) (e : GltfError)
    (hm : get_primitive_topology m = .error e) :
    ∀ pre : List Mode, (∀ x ∈ pre, (get_primitive_topology x).isOk = true) →
      primitiveTopologies (pre ++ m :: suf) = .error e := by
  intro pre
  induction pre with
  | nil =>
    rw [List.nil_append]
    intro _
    rw [primitiveTopologies, hm]
  | cons x pre ih =>
    intro h
    have hx := h _ (List.mem_cons_self _ _)
    rw [List.cons_append, primitiveTopologies]
    cases hgx : get_primitive_topology x with
    | error e' =>
      rw [hgx] at hx
      simp [Except.isOk, Except.toBool] at hx
    | ok t =>
      rw [ih (fun r hr => h r (List.mem_cons_of_mem _ hr))]
      rfl

theorem readAttributes_spec (rs : List (Except AccessFailed VertexAttributeIter)) :
    (readAttributes rs).1 = rs.filterMap (fun r => r.toOption) ∧
      (readAttributes rs).1.length + (readAttributes rs).2 = rs.length := by
  induction rs with
  | nil => exact ⟨rfl, rfl⟩
  | cons r rs ih =>
    cases r with
    | ok v =>
      refine ⟨?_, ?_⟩
      · rw [readAttributes]
        simp [Except.toOption, ih.1]
      · rw [readAttributes]
        simp only [List.length_cons]
        have := ih.2
        omega
    | error e =>
      refine ⟨?_, ?_⟩
      · rw [readAttributes]
        simp [Except.toOption, ih.1]
      · rw [readAttributes]
        have := ih.2
        simp only [List.length_cons]
        omega

theorem runChannel_fatal (aidx : Nat) (c : Channel) (h : channelFatal c = true) :
    runChannel aidx c = .error (.MissingAnimationSampler aidx) := by
  obtain ⟨ci, cin, cout, cp⟩ := c
  cases cin with
  | none => rfl
  | some inp =>
    cases inp with
    | Sparse => simp [channelFatal] at h
    | Standard times =>
      cases cout with
      | none => rfl
      | some out => simp [channelFatal, Option.isNone] at h

theorem runChannel_ok (aidx : Nat) (c : Channel) (h : channelFatal c = false) :
    ∃ o, runChannel aidx c = .ok o := by
  obtain ⟨ci, cin, cout, cp⟩ := c
  cases cin with
  | none => simp [channelFatal] at h
  | some inp =>
    cases inp with
    | Sparse => exact ⟨none, rfl⟩
    | Standard times =>
      cases cout with
      | none => simp [channelFatal, Option.isNone] at h
      | some out =>
        cases out with
        | Translations v =>
          cases cp with
          | none => exact ⟨none, rfl⟩
          | some p => exact ⟨some ⟨p.2, times, .Translations v⟩, rfl⟩
        | Rotations v =>
          cases cp with
          | none => exact ⟨none, rfl⟩
          | some p => exact ⟨some ⟨p.2, times, .Rotations v⟩, rfl⟩
        | Scales v =>
          cases cp with
          | none => exact ⟨none, rfl⟩
          | some p => exact ⟨some ⟨p.2, times, .Scales v⟩, rfl⟩
        | MorphTargetWeights v => exact ⟨none, rfl⟩

theorem runChannels_error_of_fatal (aidx : Nat) :
    ∀ chs : List Channel, (∃ c ∈ chs, channelFatal c = true) →
      runChannels aidx chs = .error (.MissingAnimationSampler aidx) := by
  intro chs
  induction chs with
  | nil =>
    rintro ⟨c, hc, _⟩
    exact absurd hc (List.not_mem_nil _)
  | cons c rest ih =>
    rintro ⟨d, hd, hdf⟩
    rcases List.mem_cons.mp hd with rfl | hdrest
    · rw [runChannels, runChannel_fatal aidx d hdf]
    · cases hcf : channelFatal c with
      | true => rw [runChannels, runChannel_fatal aidx c hcf]
      | false =>
        obtain ⟨o, ho⟩ := runChannel_ok aidx c hcf
        rw [runChannels, ho]
        cases o with
        | none => exact ih ⟨d, hdrest, hdf⟩
        | some cv =>
          rw [ih ⟨d, hdrest, hdf⟩]
          rfl

theorem runChannels_ok_of_no_fatal (aidx : Nat) :
    ∀ chs : List Channel, (∀ c ∈ chs, channelFatal c = false) →
      ∃ l, runChannels aidx chs = .ok l := by
  intro chs
  induction chs with
  | nil => exact fun _ => ⟨[], rfl⟩
  | cons c rest ih =>
    intro h
    obtain ⟨o, ho⟩ := runChannel_ok aidx c (h _ (List.mem_cons_self _ _))
    obtain ⟨l, hl⟩ := ih (fun d hd => h d (List.mem_cons_of_mem _ hd))
    cases o with
    | none =>
      refine ⟨l, ?_⟩
      rw [runChannels, ho, hl]
    | some cv =>
      refine ⟨cv :: l, ?_⟩
      rw [runChannels, ho, hl]
      rfl

theorem processAnimations_ok (anims : List (Nat × List Channel))
    (h : ∀ a ∈ anims, ∀ c ∈ a.2, channelFatal c = false) :
    processAnimations anims = .ok (anims.map (fun a => "Animation" ++ toString a.1)) := by
  induction anims with
  | nil => rfl
  | cons a rest ih =>
    obtain ⟨l, hl⟩ := runChannels_ok_of_no_fatal a.1 a.2 (h a (List.mem_cons_self _ _))
    rw [processAnimations, hl, ih (fun b hb => h b (List.mem_cons_of_mem _ hb))]
    rfl

/-! ### The claims on the per-phase models -/

/-- The base node value of the loader's intermediate entries
(loader.rs:604-624): no children, no mesh, transform tag 0. -/
def leafNode : GltfNode := GltfNode.mk [] none 0

/-- Three nodes: node 0 declares itself as child (a cycle, so it is
dropped), nodes 1 and 2 resolve and carry the names `x` and `y`. -/
def cycleNamedInput : List NodeEntry :=
  [("n0", leafNode, [0]), ("nx", leafNode, []), ("ny", leafNode, [])]

/-- C2: the claim says a name's entry survives iff its node was resolved
and that the name's handle refers to the node bearing it.  In the code the
name map stores the ORIGINAL node index (loader.rs:630) but looks it up in
the COMPACTED resolved vector (loader.rs:639-643): on `cycleNamedInput`
node 1 (named `x`, label `nx`) and node 2 (named `y`, label `ny`) are both
resolved, yet the named map binds `x` to the handle labelled `ny` — a
different node — and drops `y` entirely. -/
theorem c2_named_nodes_shifted :
    (resolve_node_hierarchy cycleNamedInput).nodes.map (fun p => p.1) = ["nx", "ny"] ∧
    named_nodes ((resolve_node_hierarchy cycleNamedInput).nodes.map (fun p => p.1))
      [("x", 1), ("y", 2)] = [("x", "ny")] := by
  constructor
  · rw [resolve_node_hierarchy_eval]
    rfl
  · rw [resolve_node_hierarchy_eval]
    rfl

/-- C3 (amended): `from_accessor` never inspects sparseness.
`UnsupportedFormat` arises exactly when the (data type, dimensions) pair
has no arm or a native-format arm meets a normalized accessor; when the
format is mapped and the external iterator constructor fails — as it does
for a sparse accessor — the error is `MalformedData`. -/
theorem c3_sparse_independent :
    ∀ (ext : Accessor → Bool) (acc : Accessor),
      (from_accessor ext acc = .error .UnsupportedFormat ↔
        unsupportedVertexFormat acc.data_type acc.dimensions acc.normalized = true) ∧
      (unsupportedVertexFormat acc.data_type acc.dimensions acc.normalized = false →
        ext acc = false → from_accessor ext acc = .error .MalformedData) := by
  intro ext acc
  obtain ⟨dt, dim, n, sp⟩ := acc
  cases hext : ext ⟨dt, dim, n, sp⟩ <;> cases n <;> cases dt <;> cases dim <;>
    simp [from_accessor, with_no_norm, with_norm, BufferAccessor.iter,
      unsupportedVertexFormat, Except.map, hext]

/-- C3 counterexample: a sparse `(F32, Vec3)` accessor.  With the external
iterator constructor rejecting it (the gltf crate's behavior for the
loader's plain-view reads) decoding fails as `MalformedData`, not
`UnsupportedFormat`; and an accepting constructor decodes it outright. -/
theorem c3_counterexample :
    from_accessor (fun a => ! a.sparse) ⟨.F32, .Vec3, false, true⟩ =
      .error .MalformedData ∧
    from_accessor (fun _ => true) ⟨.F32, .Vec3, false, true⟩ = .ok .F32x3 := by
  exact ⟨rfl, rfl⟩

/-- C4 (amended): texture decode failures are non-fatal only on the
concurrent path (more than one texture, not wasm), where each failure is
one warning and the texture is dropped; on the serial path — exactly one
texture, or wasm — the first failure aborts the whole load with that
texture's error. -/
theorem c4_texture_failures :
    (∀ rs : List (Except GltfError Nat), rs.length ≠ 1 →
      texturePhase false rs =
        .ok (rs.filterMap (fun r => r.toOption), rs.countP (fun r => !r.isOk))) ∧
    (∀ (wasm : Bool) (pre suf : List (Except GltfError Nat)) (e : GltfError),
      (∀ r ∈ pre, r.isOk = true) → ((pre ++ .error e :: suf).length = 1 ∨ wasm = true) →
      texturePhase wasm (pre ++ .error e :: suf) = .error e) := by
  constructor
  · intro rs h
    rw [texturePhase, if_neg]
    · rfl
    · simp [h]
  · intro wasm pre suf e hpre hgate
    rw [texturePhase, if_pos, texturesSerial_first_error suf e pre hpre]
    · rfl
    · rcases hgate with h | h
      · simp [h]
      · simp [h]

/-- C4 counterexample: a document with exactly one texture whose decode
fails takes the serial path, and the failure aborts the whole load. -/
theorem c4_counterexample :
    texturePhase false [.error (.InvalidImageMimeType "image/png")] =
      .error (.InvalidImageMimeType "image/png") := by
  exact rfl

/-- C5 (amended): the skin phase aborts — by the `.unwrap()` panic at
loader.rs:700, modelled as `none`, not by any typed `GltfError` value —
exactly when some skin's inverse-bind-matrix accessor is absent. -/
theorem c5_skin_unwrap_panics :
    ∀ skins : List (Option (List Nat)),
      skinPhase skins = none ↔ none ∈ skins := by
  intro skins
  induction skins with
  | nil => simp [skinPhase]
  | cons ibm rest ih =>
    cases ibm with
    | none => simp [skinPhase]
    | some ms =>
      rw [skinPhase]
      cases h : skinPhase rest with
      | none => simp [Option.bind, ih.mp h]
      | some l =>
        have : ¬ none ∈ rest := fun hm => by
          rw [ih.mpr hm] at h
          exact Option.noConfusion h
        simp [Option.bind, this]

/-- C5 counterexample: one skin with its inverse-bind matrices readable
succeeds, while a following skin with the accessor absent panics the
whole phase (`none`) — there is no typed failure value, `GltfError` has no
skin-related constructor to carry one. -/
theorem c5_counterexample :
    skinPhase [some [7, 8]] = some [[7, 8]] ∧ skinPhase [some [7, 8], none] = none := by
  exact ⟨rfl, rfl⟩

/-- C8: the topology mapping is exactly the five-row fixed table, the two
remaining modes fail as `UnsupportedPrimitive`, and in the mesh loop the
first unsupported mode aborts the whole load (while attribute decode
failures never do: every attribute outcome list yields the inserted values
plus one warning per failure). -/
theorem c8_topology_table :
    get_primitive_topology .Points = .ok .PointList ∧
    get_primitive_topology .Lines = .ok .LineList ∧
    get_primitive_topology .LineStrip = .ok .LineStrip ∧
    get_primitive_topology .Triangles = .ok .TriangleList ∧
    get_primitive_topology .TriangleStrip = .ok .TriangleStrip ∧
    get_primitive_topology .LineLoop = .error (.UnsupportedPrimitive .LineLoop) ∧
    get_primitive_topology .TriangleFan = .error (.UnsupportedPrimitive .TriangleFan) ∧
    (∀ (pre suf : List Mode) (m : Mode),
      (m = .LineLoop ∨ m = .TriangleFan) → (∀ x ∈ pre, (get_primitive_topology x).isOk = true) →
      primitiveTopologies (pre ++ m :: suf) = .error (.UnsupportedPrimitive m)) ∧
    (∀ rs : List (Except AccessFailed VertexAttributeIter),
      (readAttributes rs).1 = rs.filterMap (fun r => r.toOption) ∧
      (readAttributes rs).1.length + (readAttributes rs).2 = rs.length) := by
  refine ⟨rfl, rfl, rfl, rfl, rfl, rfl, rfl, ?_, readAttributes_spec⟩
  intro pre suf m hm hpre
  rcases hm with rfl | rfl
  · exact primitiveTopologies_first_error suf .LineLoop (.UnsupportedPrimitive .LineLoop)
      rfl pre hpre
  · exact primitiveTopologies_first_error suf .TriangleFan (.UnsupportedPrimitive .TriangleFan)
      rfl pre hpre

/-- C9 (amended): a channel is fatal exactly when its sampler input is
missing, or its input is standard and its sampler output is missing (a
sparse input is skipped before the output is ever read, so a sparse-input
channel is never fatal, missing output or not).  The first animation
holding a fatal channel aborts the whole load with
`MissingAnimationSampler` of that animation's index — publishing no clip
for it or any later animation — and with no fatal channel every
animation's clip is published. -/
theorem c9_missing_sampler_fatal :
    (∀ c : Channel, channelFatal c = true ↔
      (c.inputs = none ∨ ∃ t, c.inputs = some (.Standard t) ∧ c.outputs = none)) ∧
    (∀ (pre : List (Nat × List Channel)) (aidx : Nat) (chs : List Channel)
      (suf : List (Nat × List Channel)),
      (∀ a ∈ pre, ∀ c ∈ a.2, channelFatal c = false) → (∃ c ∈ chs, channelFatal c = true) →
      processAnimations (pre ++ (aidx, chs) :: suf) =
        .error (.MissingAnimationSampler aidx)) ∧
    (∀ anims : List (Nat × List Channel),
      (∀ a ∈ anims, ∀ c ∈ a.2, channelFatal c = false) →
      processAnimations anims = .ok (anims.map (fun a => "Animation" ++ toString a.1))) := by
  refine ⟨?_, ?_, processAnimations_ok⟩
  · intro c
    obtain ⟨ci, cin, cout, cp⟩ := c
    cases cin with
    | none => simp [channelFatal]
    | some inp =>
      cases inp with
      | Sparse => simp [channelFatal]
      | Standard times =>
        cases cout with
        | none => simp [channelFatal, Option.isNone]
        | some out => simp [channelFatal, Option.isNone]
  · intro pre aidx chs suf hpre hfatal
    induction pre with
    | nil =>
      rw [List.nil_append, processAnimations,
        runChannels_error_of_fatal aidx chs hfatal]
    | cons a rest ih =>
      obtain ⟨l, hl⟩ := runChannels_ok_of_no_fatal a.1 a.2
        (hpre a (List.mem_cons_self _ _))
      rw [List.cons_append, processAnimations, hl,
        ih (fun b hb => hpre b (List.mem_cons_of_mem _ hb))]
      rfl

/-- C9 counterexample: a channel whose sampler output data is missing but
whose sampler input is sparse is skipped at loader.rs:392-395 before
`read_outputs()` is called — it is not fatal, the load succeeds and the
animation's clip is still published — refuting the claim's universal
"missing output aborts the load". -/
theorem c9_counterexample :
    channelFatal ⟨.Linear, some .Sparse, none, some (0, ["n"])⟩ = false ∧
    processAnimations [(0, [⟨.Linear, some .Sparse, none, some (0, ["n"])⟩])] =
      .ok ["Animation0"] := by
  exact ⟨rfl, rfl⟩


/-! ### The claims on the node resolver -/

theorem resolve_childWarnings (L : List NodeEntry) :
    (resolve_node_hierarchy L).childWarnings = if (initParents L).2 = true then 1 else 0 := rfl

theorem labelOf_inj (L : List NodeEntry) (hnodup : (L.map (fun e => e.1)).Nodup)
    (i j : Nat) (hi : i < L.length) (hj : j < L.length) (he : labelOf L i = labelOf L j) :
    i = j := by
  have hmi : i < (L.map (fun e => e.1)).length := by
    rw [List.length_map]
    exact hi
  have hmj : j < (L.map (fun e => e.1)).length := by
    rw [List.length_map]
    exact hj
  have h1 : (L.map (fun e => e.1)).get ⟨i, hmi⟩ = labelOf L i := by
    rw [List.get_eq_getElem, List.getElem_map]
    simp [labelOf, List.getElem?_eq_getElem hi]
  have h2 : (L.map (fun e => e.1)).get ⟨j, hmj⟩ = labelOf L j := by
    rw [List.get_eq_getElem, List.getElem_map]
    simp [labelOf, List.getElem?_eq_getElem hj]
  have hgg : (L.map (fun e => e.1)).get ⟨i, hmi⟩ = (L.map (fun e => e.1)).get ⟨j, hmj⟩ := by
    rw [h1, h2, he]
  have h3 := (List.Nodup.get_inj_iff hnodup).mp hgg
  simpa using h3

/-- The acyclic three-node input in which nodes `a` and `b` both declare
node 2 as a child. -/
def sharedChildInput : List NodeEntry :=
  [("a", leafNode, [2]), ("b", leafNode, [2]), ("c", leafNode, [])]

/-- The acyclic input in which node `a` declares node 1 as a child twice. -/
def duplicateChildInput : List NodeEntry :=
  [("a", leafNode, [1, 1]), ("b", leafNode, [])]

/-- C1 counterexample: two acyclic inputs on which the claim fails.  On
`sharedChildInput` only 2 of the 3 nodes are returned (the last declarer
of the shared child wins the parent slot, so `a` never resolves); on
`duplicateChildInput` node `a` declares a child list of length 2 but its
resolved children vector has length 1 (the pending-children set
deduplicates). -/
theorem c1_counterexample :
    Acyclic sharedChildInput ∧
    (resolve_node_hierarchy sharedChildInput).nodes.length = 2 ∧
    Acyclic duplicateChildInput ∧
    (resolve_node_hierarchy duplicateChildInput).nodes.map
      (fun p => p.2.children.length) = [1, 0] := by
  refine ⟨by decide, ?_, by decide, ?_⟩
  · rw [resolve_node_hierarchy_eval]
    rfl
  · rw [resolve_node_hierarchy_eval]
    rfl

/-- C1 (amended): when the input nodes start with empty children vectors
and the declared child lists form a forest — no index declared twice
(across all lists, repeats included), all indices in range, no cycle —
`resolve_node_hierarchy` returns one pair per input triple, labels in
ascending original-index order, and each node's resolved children vector
is exactly as long as its declared child list. -/
theorem c1_forest_complete (L : List NodeEntry)
    (hch : L.all (fun e => e.2.1.children.isEmpty) = true)
    (H1 : (allDeclared L).Nodup)
    (H2 : ∀ c ∈ allDeclared L, c < L.length)
    (H3 : Acyclic L) :
    (resolve_node_hierarchy L).nodes.length = L.length ∧
    (resolve_node_hierarchy L).nodes.map (fun p => p.1) = L.map (fun e => e.1) ∧
    ∀ i, i < L.length →
      ((resolve_node_hierarchy L).nodes[i]?).map (fun p => p.2.children.length) =
        some (declOf L i).length := by
  have hmaster := resolve_nodes_eq L
  rw [resolvedIndices_forest L H1 H2 H3] at hmaster
  refine ⟨?_, ?_, ?_⟩
  · rw [hmaster, List.length_map, List.length_range]
  · rw [hmaster, List.map_map]
    exact range_map_labelOf L
  · intro i hi
    rw [hmaster, List.getElem?_map, List.getElem?_range hi]
    have hnodechildren : (nodeOf L i).children = [] := by
      have hie := List.all_eq_true.mp hch _ (List.getElem_mem hi)
      have hni : nodeOf L i = (L[i]).2.1 := by
        simp [nodeOf, List.getElem?_eq_getElem hi]
      rw [hni]
      exact List.isEmpty_iff.mp hie
    show some ((finalNodeOf L i).children.length) = some ((declOf L i).length)
    rw [finalNodeOf, children_appendChildren, hnodechildren, List.nil_append,
      childrenOfIn_trace_length_forest L H1 H2 H3 i hi]

/-- The seven-node tree of the repository's `node_hierarchy` unit test
(loader.rs:1446-1465). -/
def testTree : List NodeEntry :=
  [("l1", leafNode, [1]), ("l2", leafNode, [2]), ("l3", leafNode, [3, 4, 5]),
   ("l4", leafNode, [6]), ("l5", leafNode, []), ("l6", leafNode, []), ("l7", leafNode, [])]

/-- C1 witness: the amended theorem applied to the seven-node test tree. -/
theorem c1_forest_complete_witness :
    (resolve_node_hierarchy testTree).nodes.length = testTree.length ∧
    (resolve_node_hierarchy testTree).nodes.map (fun p => p.1) = testTree.map (fun e => e.1) ∧
    ∀ i, i < testTree.length →
      ((resolve_node_hierarchy testTree).nodes[i]?).map (fun p => p.2.children.length) =
        some (declOf testTree i).length :=
  c1_forest_complete testTree (by decide) (by decide) (by decide) (by decide)

/-- The two-node 2-cycle of the repository's `node_hierarchy_cyclic` unit
test (loader.rs:1506-1517). -/
def twoCycleInput : List NodeEntry := [("l1", leafNode, [1]), ("l2", leafNode, [0])]

/-- C6: the returned pairs are exactly the resolvable input indices in
ascending order with their labels and linked nodes (`resolvableWithin` is
the least-fixpoint reading of topological orderability under the final
parent map); under pairwise-distinct labels a label therefore appears in
the output iff its node is resolvable — dropped nodes' labels are entirely
absent — and the two-node 2-cycle resolves to the empty result. -/
theorem c6_cycles_excised :
    (∀ L : List NodeEntry, (resolve_node_hierarchy L).nodes =
      (resolvedIndices L).map (fun i => (labelOf L i, finalNodeOf L i))) ∧
    (∀ L : List NodeEntry, (L.map (fun e => e.1)).Nodup →
      ∀ i, i < L.length →
        (labelOf L i ∈ (resolve_node_hierarchy L).nodes.map (fun p => p.1) ↔
          resolvableWithin L L.length i = true)) ∧
    (resolve_node_hierarchy twoCycleInput).nodes = [] := by
  refine ⟨resolve_nodes_eq, ?_, ?_⟩
  · intro L hnodup i hi
    constructor
    · intro h
      rw [resolve_nodes_eq, List.map_map] at h
      obtain ⟨j, hj, hje⟩ := List.mem_map.mp h
      rw [resolvedIndices, List.mem_filter, List.mem_range] at hj
      have hlab : labelOf L j = labelOf L i := hje
      have hij : j = i := labelOf_inj L hnodup j i hj.1 hi hlab
      rw [← hij]
      exact hj.2
    · intro hres
      rw [resolve_nodes_eq, List.map_map]
      refine List.mem_map.mpr ⟨i, ?_, rfl⟩
      rw [resolvedIndices, List.mem_filter, List.mem_range]
      exact ⟨hi, hres⟩
  · rw [resolve_node_hierarchy_eval]
    rfl

/-- The dangling-reference input of the repository's
`node_hierarchy_missing_node` unit test (loader.rs:1492-1503). -/
def danglingInput : List NodeEntry := [("l1", leafNode, [2]), ("l2", leafNode, [])]

/-- C7: the "Unexpected child" warning fires at most once per run — exactly
once iff some entry declares an out-of-range child index, however many such
references there are — and on the dangling input `l1→[2]`, `l2→[]` the
resolver returns exactly `l2` with that one warning. -/
theorem c7_dangling_children :
    (∀ L : List NodeEntry, (resolve_node_hierarchy L).childWarnings ≤ 1) ∧
    (∀ L : List NodeEntry,
      ((resolve_node_hierarchy L).childWarnings = 1 ↔ ∃ e ∈ L, ∃ c ∈ e.2.2, L.length ≤ c)) ∧
    (resolve_node_hierarchy danglingInput).nodes.map (fun p => p.1) = ["l2"] ∧
    (resolve_node_hierarchy danglingInput).childWarnings = 1 := by
  refine ⟨?_, ?_, ?_, ?_⟩
  · intro L
    rw [resolve_childWarnings]
    by_cases hb : (initParents L).2 = true
    · rw [if_pos hb]
    · rw [if_neg hb]
      omega
  · intro L
    rw [resolve_childWarnings]
    constructor
    · intro h
      by_cases hb : (initParents L).2 = true
      · exact (initParents_snd_iff L).mp hb
      · rw [if_neg hb] at h
        exact absurd h (by omega)
    · intro h
      rw [if_pos ((initParents_snd_iff L).mpr h)]
  · rw [resolve_node_hierarchy_eval]
    rfl
  · rfl

/-- A parent whose declared child list names the subtree-rooting child
(transform tag 1) before a leaf child (transform tag 2); the remaining
leaf (tag 3) hangs under the subtree root. -/
def orderedInput : List NodeEntry :=
  [("p", GltfNode.mk [] none 0, [1, 2]), ("s", GltfNode.mk [] none 1, [3]),
   ("leaf", GltfNode.mk [] none 2, []), ("leaf2", GltfNode.mk [] none 3, [])]

/-- C10: each resolved node's children vector is its input children
followed by the resolved children completed so far, in completion (work
queue) order — the filter of the resolution trace up to that point — and
on `orderedInput` node `p`'s children carry transform tags `[2, 1]` (the
leaf completed before the subtree root) while its declared child list
`[1, 2]` names them in the opposite order. -/
theorem c10_children_completion_order :
    (∀ (L : List NodeEntry) (k i : Nat) (l : String) (nd : GltfNode),
      (resolutionTrace L)[k]? = some (i, l, nd) →
      nd.children = (nodeOf L i).children ++ childrenOfIn L i ((resolutionTrace L).take k)) ∧
    ((resolve_node_hierarchy orderedInput).nodes[0]?).map
      (fun p => (p.1, p.2.children.map (fun c => c.transform))) = some ("p", [2, 1]) ∧
    declOf orderedInput 0 = [1, 2] := by
  refine ⟨?_, ?_, rfl⟩
  · intro L k i l nd hk
    have h := (resolutionTrace_inv L).res_spec k i l nd hk
    rw [h.2.1, children_appendChildren]
  · rw [resolve_node_hierarchy_eval]
    rfl

end GltfPatched
